import Mathlib

/-!
# Verification of the lilliput codec core

A shallow embedding of the lilliput binary serialization codec
(`lilliput-core`): the byte-level wire format, the value model with
canonicalized integers, and the streaming encoder/decoder, together with
proofs of the round-trip, skip, length-decoding and canonicalization
properties.

Bytes are modelled as `Nat` values below 256; the byte stream is a
`List Nat`.  Fallible operations return `Except Err`.  The decoder state
is the pair of the reader's remaining input and the decoder's `pos`
counter, mirroring `Decoder { reader, pos }` from
`lilliput-core/src/decoder.rs` over a slice reader.
-/

namespace Lilliput

/-! ## Byte-level arithmetic -/

/-- Big-endian bytes of `n`, exactly `w` bytes wide (most significant first).
Mirrors `u64::to_be_bytes` restricted to the low `w` bytes. -/
def natToBE : Nat → Nat → List Nat
  | 0, _ => []
  | w + 1, n => natToBE w (n / 256) ++ [n % 256]

/-- The number denoted by a big-endian byte string.  Mirrors
`u64::from_be_bytes` on a zero-left-padded buffer. -/
def beNat (bs : List Nat) : Nat :=
  bs.foldl (fun acc b => acc * 256 + b) 0

/-- Little-endian bytes of `n`, exactly `w` bytes wide.  Mirrors
`to_ne_bytes` on a little-endian platform. -/
def natToLE : Nat → Nat → List Nat
  | 0, _ => []
  | w + 1, n => n % 256 :: natToLE w (n / 256)

theorem natToBE_length (w n : Nat) : (natToBE w n).length = w := by
  induction w generalizing n with
  | zero => rfl
  | succ w ih => simp [natToBE, ih]

theorem beNat_go (bs : List Nat) (acc : Nat) :
    bs.foldl (fun acc b => acc * 256 + b) acc = acc * 256 ^ bs.length + beNat bs := by
  induction bs generalizing acc with
  | nil => simp [beNat]
  | cons b bs ih =>
    simp only [List.foldl_cons, beNat, List.length_cons]
    rw [ih (acc * 256 + b), ih (0 * 256 + b)]
    ring

theorem beNat_append (xs ys : List Nat) :
    beNat (xs ++ ys) = beNat xs * 256 ^ ys.length + beNat ys := by
  simp only [beNat, List.foldl_append]
  rw [beNat_go ys (List.foldl (fun acc b => acc * 256 + b) 0 xs)]
  rfl

theorem beNat_natToBE (w n : Nat) : beNat (natToBE w n) = n % 256 ^ w := by
  induction w generalizing n with
  | zero => simp [natToBE, beNat, Nat.mod_one]
  | succ w ih =>
    rw [natToBE, beNat_append, ih]
    simp only [beNat, List.foldl, List.length_cons, List.length_nil]
    have h256 : (256 : Nat) ^ (w + 1) = 256 * 256 ^ w := by ring
    rw [h256, Nat.mod_mul]
    ring

theorem beNat_natToBE_of_lt {w n : Nat} (h : n < 256 ^ w) :
    beNat (natToBE w n) = n := by
  rw [beNat_natToBE, Nat.mod_eq_of_lt h]

theorem beNat_lt (bs : List Nat) (h : ∀ b ∈ bs, b < 256) :
    beNat bs < 256 ^ bs.length := by
  induction bs with
  | nil => simp [beNat]
  | cons b t ih =>
    have hb : b < 256 := h b (List.mem_cons_self _ _)
    have ht := ih (fun x hx => h x (List.mem_cons_of_mem _ hx))
    simp only [beNat, List.foldl_cons, List.length_cons]
    rw [beNat_go t (0 * 256 + b)]
    simp only [Nat.zero_mul, Nat.zero_add]
    calc b * 256 ^ t.length + beNat t
        < b * 256 ^ t.length + 256 ^ t.length := Nat.add_lt_add_left ht _
      _ = (b + 1) * 256 ^ t.length := by ring
      _ ≤ 256 * 256 ^ t.length := Nat.mul_le_mul_right _ (by omega)
      _ = 256 ^ (t.length + 1) := by ring

/-! ## Markers

`Marker` identifies the nine value kinds
(`lilliput-core/src/marker.rs`, not included in the excerpt).
`Marker::detect` is total over all 256 byte values; `Marker::validate`
checks a byte against an expected marker. -/

inductive Marker where
  | int | string | seq | map | float | bytes | bool | unit | null
  deriving DecidableEq, Repr

/-- Modelled from the spec: `marker.rs` is absent from the excerpt.  The spec
fixes only that detection is total over bytes, injective to the nine kinds,
and self-consistent with the per-kind header layouts (§6, implementers' note).
The assignment here keeps every constant visible in the source exact
(`BoolHeader::TYPE_BITS = 0b10`, `BoolHeader::VALUE_BIT = 0b1`, the bytes
header's 2-bit length-width exponent, the seq header's compact-variant bit
and 3-bit length/width fields) and houses the remaining kinds in disjoint
byte ranges: unit `0x00`, null `0x01`, bool `0x02..0x03`, float
`0x04..0x07`, string-extended `0x08..0x0B`, bytes `0x0C..0x0F`,
int-extended `0x10..0x1F`, string-compact `0x20..0x3F`, seq `0x40..0x4F`,
map `0x50..0x5F`, filler `0x60..0x7F` (never emitted, detected as bytes),
int-compact `0x80..0xFF`. -/
def Marker.detect (b : Nat) : Marker :=
  if 0x80 ≤ b then .int
  else if 0x60 ≤ b then .bytes
  else if 0x50 ≤ b then .map
  else if 0x40 ≤ b then .seq
  else if 0x20 ≤ b then .string
  else if 0x10 ≤ b then .int
  else if 0x0C ≤ b then .bytes
  else if 0x08 ≤ b then .string
  else if 0x04 ≤ b then .float
  else if 0x02 ≤ b then .bool
  else if b = 1 then .null
  else .unit

/-! ## Integer values

`IntValue` and its width-tagged components
(`lilliput-core/src/value/int.rs`).  `SignedIntValue` and
`UnsignedIntValue` live in `value/int/signed.rs` / `unsigned.rs` (absent
from the excerpt); per the spec they are width-tagged 8/16/32/64-bit
integers whose `canonicalized()` widens to the mathematical value
(`i64` resp. `u64`), and whose own equality and ordering are
width-independent. -/

/-- Width-tagged signed integer.  The payload is the mathematical value;
well-formedness (`SignedIntValue.Wf`) bounds it by the tagged width. -/
inductive SignedIntValue where
  | i8 (v : Int) | i16 (v : Int) | i32 (v : Int) | i64 (v : Int)
  deriving DecidableEq, Repr

/-- Width-tagged unsigned integer. -/
inductive UnsignedIntValue where
  | u8 (v : Nat) | u16 (v : Nat) | u32 (v : Nat) | u64 (v : Nat)
  deriving DecidableEq, Repr

/-- Modelled from the spec: `signed.rs` is absent; `canonicalized()` widens
the value to `i64`, i.e. returns the mathematical value. -/
def SignedIntValue.canonicalized : SignedIntValue → Int
  | .i8 v | .i16 v | .i32 v | .i64 v => v

/-- Modelled from the spec: `unsigned.rs` is absent; `canonicalized()` widens
the value to `u64`. -/
def UnsignedIntValue.canonicalized : UnsignedIntValue → Nat
  | .u8 v | .u16 v | .u32 v | .u64 v => v

def SignedIntValue.Wf : SignedIntValue → Bool
  | .i8 v => decide (-(2 ^ 7) ≤ v ∧ v < 2 ^ 7)
  | .i16 v => decide (-(2 ^ 15) ≤ v ∧ v < 2 ^ 15)
  | .i32 v => decide (-(2 ^ 31) ≤ v ∧ v < 2 ^ 31)
  | .i64 v => decide (-(2 ^ 63) ≤ v ∧ v < 2 ^ 63)

def UnsignedIntValue.Wf : UnsignedIntValue → Bool
  | .u8 v => decide (v < 2 ^ 8)
  | .u16 v => decide (v < 2 ^ 16)
  | .u32 v => decide (v < 2 ^ 32)
  | .u64 v => decide (v < 2 ^ 64)

/-- Represents an integer number: `IntValue ∈ Signed | Unsigned`. -/
inductive IntValue where
  | signed (v : SignedIntValue)
  | unsigned (v : UnsignedIntValue)
  deriving DecidableEq, Repr

def IntValue.Wf : IntValue → Bool
  | .signed v => v.Wf
  | .unsigned v => v.Wf

/-- `impl PartialEq for IntValue` (`value/int.rs` lines 81–108): signed
versus unsigned compares the canonicalized values, negative signed is
never equal to an unsigned; the within-kind arms are the width-independent
component equalities. -/
def IntValue.beq : IntValue → IntValue → Bool
  | .signed lhs, .signed rhs => decide (lhs.canonicalized = rhs.canonicalized)
  | .signed lhs, .unsigned rhs =>
    let l := lhs.canonicalized
    let r := rhs.canonicalized
    if l < 0 then false else decide (l.toNat = r)
  | .unsigned lhs, .signed rhs =>
    let l := lhs.canonicalized
    let r := rhs.canonicalized
    if r < 0 then false else decide (l = r.toNat)
  | .unsigned lhs, .unsigned rhs => decide (lhs.canonicalized = rhs.canonicalized)

/-- `impl Ord for IntValue` (`value/int.rs` lines 118–143). -/
def IntValue.cmp : IntValue → IntValue → Ordering
  | .unsigned lhs, .unsigned rhs => compare lhs.canonicalized rhs.canonicalized
  | .signed lhs, .signed rhs => compare lhs.canonicalized rhs.canonicalized
  | .unsigned lhs, .signed rhs =>
    let l := lhs.canonicalized
    let r := rhs.canonicalized
    if r < 0 then .gt else compare l r.toNat
  | .signed lhs, .unsigned rhs =>
    let l := lhs.canonicalized
    let r := rhs.canonicalized
    if l < 0 then .lt else compare l.toNat r

/-- The byte string fed to the hasher by `impl Hash for IntValue`
(`value/int.rs` lines 145–162): unsigned values hash the native-endian
bytes of the canonical `u64`; non-negative signed values hash
`(value as u64).to_ne_bytes()`; negative signed values hash the
native-endian two's-complement bytes of the canonical `i64`.
Native-endian is modelled as little-endian. -/
def IntValue.hashBytes : IntValue → List Nat
  | .unsigned v => natToLE 8 v.canonicalized
  | .signed v =>
    let c := v.canonicalized
    if c < 0 then natToLE 8 (c % (2 ^ 64 : Int)).toNat
    else natToLE 8 c.toNat

/-! ## Float, string, bytes and composite values

`FloatValue` carries the bit-exact IEEE-754 pattern (spec §3, §4.4: floats
are transported by raw bit pattern, never normalized or promoted).
`Value` mirrors the nine kinds (`lilliput-core/src/value.rs`, absent from
the excerpt; modelled from the spec §3): strings own UTF-8 bytes,
sequences are ordered lists of values, maps are ordered lists of
key/value entries. -/

inductive FloatValue where
  | f32 (bits : Nat)
  | f64 (bits : Nat)
  deriving DecidableEq, Repr

inductive Value where
  | int (v : IntValue)
  | str (bytes : List Nat)
  | seq (items : List Value)
  | map (entries : List (Value × Value))
  | float (v : FloatValue)
  | bytes (bs : List Nat)
  | bool (b : Bool)
  | unit
  | null
  deriving Repr

/-! Modelled from the spec: `value.rs` is absent.  Equality of values
(`impl PartialEq for Value`) is structural per kind, with integers
compared through `IntValue`'s canonicalizing equality, floats bit-exact
per precision, sequences elementwise and maps entrywise in order. -/
mutual
def Value.beq : Value → Value → Bool
  | .int a, .int b => IntValue.beq a b
  | .str a, .str b => decide (a = b)
  | .seq a, .seq b => Value.beqList a b
  | .map a, .map b => Value.beqPairs a b
  | .float (.f32 a), .float (.f32 b) => decide (a = b)
  | .float (.f64 a), .float (.f64 b) => decide (a = b)
  | .bytes a, .bytes b => decide (a = b)
  | .bool a, .bool b => decide (a = b)
  | .unit, .unit => true
  | .null, .null => true
  | _, _ => false

def Value.beqList : List Value → List Value → Bool
  | [], [] => true
  | a :: as, b :: bs => Value.beq a b && Value.beqList as bs
  | _, _ => false

def Value.beqPairs : List (Value × Value) → List (Value × Value) → Bool
  | [], [] => true
  | (k1, v1) :: as, (k2, v2) :: bs =>
    Value.beq k1 k2 && Value.beq v1 v2 && Value.beqPairs as bs
  | _, _ => false
end

/-- Strict UTF-8 validation of a byte string.  Modelled from the spec:
string decoding runs `String::from_utf8` (spec §4.5: "Strings verify
UTF-8 before construction"); this is the standard RFC 3629 validator
(continuation ranges, no overlongs, no surrogates, max U+10FFFF). -/
def utf8Valid : List Nat → Bool
  | [] => true
  | b :: rest =>
    if b < 0x80 then utf8Valid rest
    else if b < 0xC2 then false
    else if b < 0xE0 then
      match rest with
      | b1 :: rest2 => decide (0x80 ≤ b1 ∧ b1 < 0xC0) && utf8Valid rest2
      | _ => false
    else if b < 0xF0 then
      match rest with
      | b1 :: b2 :: rest2 =>
        (if b = 0xE0 then decide (0xA0 ≤ b1 ∧ b1 < 0xC0)
         else if b = 0xED then decide (0x80 ≤ b1 ∧ b1 < 0xA0)
         else decide (0x80 ≤ b1 ∧ b1 < 0xC0)) &&
        decide (0x80 ≤ b2 ∧ b2 < 0xC0) && utf8Valid rest2
      | _ => false
    else if b < 0xF5 then
      match rest with
      | b1 :: b2 :: b3 :: rest2 =>
        (if b = 0xF0 then decide (0x90 ≤ b1 ∧ b1 < 0xC0)
         else if b = 0xF4 then decide (0x80 ≤ b1 ∧ b1 < 0x90)
         else decide (0x80 ≤ b1 ∧ b1 < 0xC0)) &&
        decide (0x80 ≤ b2 ∧ b2 < 0xC0) && decide (0x80 ≤ b3 ∧ b3 < 0xC0) &&
        utf8Valid rest2
      | _ => false
    else false

/-- Map keys are pairwise distinct under the value equality, as in any
in-memory map keyed by `Value`. -/
def keysFresh : List (Value × Value) → Bool
  | [] => true
  | (k, _) :: rest => rest.all (fun p => !Value.beq k p.1) && keysFresh rest

/-! Well-formedness of an in-memory value: integer payloads fit their
tagged widths, float payloads fit their precision, strings are valid
UTF-8, byte-string elements are bytes, and lengths fit the 64-bit
platform index type. -/
mutual
def Value.Wf : Value → Bool
  | .int v => v.Wf
  | .str bs => utf8Valid bs && decide (bs.length < 2 ^ 64)
  | .seq items => Value.WfList items && decide (items.length < 2 ^ 64)
  | .map entries =>
    Value.WfPairs entries && keysFresh entries && decide (entries.length < 2 ^ 64)
  | .float (.f32 bits) => decide (bits < 2 ^ 32)
  | .float (.f64 bits) => decide (bits < 2 ^ 64)
  | .bytes bs => bs.all (fun b => decide (b < 256)) && decide (bs.length < 2 ^ 64)
  | .bool _ => true
  | .unit => true
  | .null => true

def Value.WfList : List Value → Bool
  | [] => true
  | v :: vs => Value.Wf v && Value.WfList vs

def Value.WfPairs : List (Value × Value) → Bool
  | [] => true
  | (k, v) :: rest => Value.Wf k && Value.Wf v && Value.WfPairs rest
end

/-! The canonical form the decoder reproduces: non-negative integers
become `Unsigned(u64)`, negative ones `Signed(i64)` (spec §4.5: decoding
"produces the canonical `IntValue`"); everything else is preserved with
children canonicalized. -/
/-- The canonical `IntValue` the decoder produces for a given integer. -/
def IntValue.canon : IntValue → IntValue
  | .signed s =>
    let c := s.canonicalized
    if c < 0 then .signed (.i64 c) else .unsigned (.u64 c.toNat)
  | .unsigned u => .unsigned (.u64 u.canonicalized)

mutual
def Value.canonize : Value → Value
  | .int iv => .int iv.canon
  | .str bs => .str bs
  | .seq items => .seq (Value.canonizeList items)
  | .map entries => .map (Value.canonizePairs entries)
  | .float f => .float f
  | .bytes bs => .bytes bs
  | .bool b => .bool b
  | .unit => .unit
  | .null => .null

def Value.canonizeList : List Value → List Value
  | [] => []
  | v :: vs => Value.canonize v :: Value.canonizeList vs

def Value.canonizePairs : List (Value × Value) → List (Value × Value)
  | [] => []
  | (k, v) :: rest => (Value.canonize k, Value.canonize v) :: Value.canonizePairs rest
end

/-! ## Headers

Per-kind header types (`lilliput-core/src/header.rs` and its
submodules).  `header.rs` exports compact/extended pairs for `Int`,
`String`, `Seq` and `Map`, and single header types for `Bytes`, `Bool`,
`Float`, `Unit`, `Null`. -/

structure BoolHeader where
  value : Bool
  deriving DecidableEq, Repr

namespace BoolHeader

/-- `BoolHeader::MASK` (`header/bool.rs` line 28). -/
def MASK : Nat := 0b0000011

/-- `BoolHeader::TYPE_BITS` (`header/bool.rs` line 29). -/
def TYPE_BITS : Nat := 0b0000010

/-- `BoolHeader::VALUE_BIT` (`header/bool.rs` line 31). -/
def VALUE_BIT : Nat := 0b0000001

end BoolHeader

inductive IntHeader where
  | compact (sign : Bool) (mag : Nat)
  | extended (sign : Bool) (wexp : Nat)
  deriving DecidableEq, Repr

inductive StringHeader where
  | compact (len : Nat)
  | extended (len : Nat)
  deriving DecidableEq, Repr

def StringHeader.len : StringHeader → Nat
  | .compact l => l
  | .extended l => l

inductive SeqHeader where
  | compact (len : Nat)
  | extended (len : Nat)
  deriving DecidableEq, Repr

def SeqHeader.len : SeqHeader → Nat
  | .compact l => l
  | .extended l => l

namespace SeqHeader

/-- Modelled from the spec: `header/seq.rs` is absent.  The compact
variant bit and the 3-bit compact-length / extended-width fields of the
seq header byte, consistent with their use in
`Decoder::decode_seq_header`. -/
def COMPACT_VARIANT_BIT : Nat := 0b1000

def COMPACT_LEN_BITS : Nat := 0b111

def EXTENDED_LEN_WIDTH_BITS : Nat := 0b111

end SeqHeader

inductive MapHeader where
  | compact (len : Nat)
  | extended (len : Nat)
  deriving DecidableEq, Repr

def MapHeader.len : MapHeader → Nat
  | .compact l => l
  | .extended l => l

namespace MapHeader

/-- Modelled from the spec: `header/map.rs` is absent.  Per the spec's
wire table (§6) the map header byte carries a compact-variant selector,
a 3-bit compact length, and — in the extended form — a 2-bit
length-width exponent, exponent-coded like string and bytes. -/
def COMPACT_VARIANT_BIT : Nat := 0b1000

def COMPACT_LEN_BITS : Nat := 0b111

def LEN_WIDTH_EXPONENT_BITS : Nat := 0b11

end MapHeader

/-- `BytesHeader` has no compact variant; it carries the body length.
Modelled from the spec: `header/bytes.rs` is absent;
`BytesHeader::for_len` is its constructor, and the length-width exponent
is computed from the length at encoding time. -/
structure BytesHeader where
  len : Nat
  deriving DecidableEq, Repr

namespace BytesHeader

/-- The 2-bit length-width-exponent field of the bytes header byte
(`BytesHeader::LEN_WIDTH_EXPONENT_BITS`), as used by
`Decoder::decode_bytes_header`. -/
def LEN_WIDTH_EXPONENT_BITS : Nat := 0b11

/-- `BytesHeader::for_len`: the header for a body of `len` bytes. -/
def for_len (len : Nat) : BytesHeader := ⟨len⟩

end BytesHeader

inductive FloatHeader where
  | single
  | double
  deriving DecidableEq, Repr

structure UnitHeader where
  deriving DecidableEq, Repr

structure NullHeader where
  deriving DecidableEq, Repr

/-- A value's header (`lilliput-core/src/header.rs` lines 45–77). -/
inductive Header where
  | int (h : IntHeader)
  | string (h : StringHeader)
  | seq (h : SeqHeader)
  | map (h : MapHeader)
  | float (h : FloatHeader)
  | bytes (h : BytesHeader)
  | bool (h : BoolHeader)
  | unit (h : UnitHeader)
  | null (h : NullHeader)
  deriving DecidableEq, Repr

/-! ## Encoder

Modelled from the spec: `encoder.rs` and its submodules other than
`encoder/bool.rs` are absent.  Headers are minimality-driven (spec §4.3):
compact form when the payload fits, otherwise the smallest admissible
width; the encoder is taken in its default configuration (no forced
extended lengths).  The byte layouts invert the decoders in
`decoder/seq.rs` and `decoder/bytes.rs`: seq and map extended headers
carry the length width minus one in their low 3 bits, string and bytes
extended headers carry a length-width exponent `e` (length in `2^e`
bytes) in their low 2 bits. -/

/-- Minimal byte width `w ∈ 1..8` with `len < 256 ^ w`. -/
def minLenWidth (len : Nat) : Nat :=
  if len < 256 ^ 1 then 1
  else if len < 256 ^ 2 then 2
  else if len < 256 ^ 3 then 3
  else if len < 256 ^ 4 then 4
  else if len < 256 ^ 5 then 5
  else if len < 256 ^ 6 then 6
  else if len < 256 ^ 7 then 7
  else 8

/-- Minimal width exponent `e ∈ 0..3` with `len < 256 ^ 2 ^ e`. -/
def minLenExp (len : Nat) : Nat :=
  if len < 256 ^ 1 then 0
  else if len < 256 ^ 2 then 1
  else if len < 256 ^ 4 then 2
  else 3

/-- Header bytes for a seq (`base = 0x40`) of `len` children: compact if
`len` fits the 3-bit field, otherwise the width-minus-one extended form
that `Decoder::decode_seq_header` reads back. -/
def varLenHeaderBytes (base len : Nat) : List Nat :=
  if len ≤ 7 then [base + SeqHeader.COMPACT_VARIANT_BIT + len]
  else (base + (minLenWidth len - 1)) :: natToBE (minLenWidth len) len

/-- Header bytes for a map of `len` entries: 3-bit compact length or the
exponent-coded extended length of the spec's wire table (§6). -/
def mapHeaderBytes (len : Nat) : List Nat :=
  if len ≤ 7 then [0x50 + MapHeader.COMPACT_VARIANT_BIT + len]
  else (0x50 + minLenExp len) :: natToBE (2 ^ minLenExp len) len

/-- Header bytes for a string of `len` UTF-8 bytes: 5-bit compact length
or exponent-coded extended length. -/
def stringHeaderBytes (len : Nat) : List Nat :=
  if len ≤ 31 then [0x20 + len]
  else (0x08 + minLenExp len) :: natToBE (2 ^ minLenExp len) len

/-- Header bytes for a byte string of `len` bytes (always
exponent-coded). -/
def bytesHeaderBytes (len : Nat) : List Nat :=
  (0x0C + minLenExp len) :: natToBE (2 ^ minLenExp len) len

/-- Minimal width exponent for an integer magnitude. -/
def minIntExp (mag : Nat) : Nat :=
  if mag < 256 ^ 1 then 0
  else if mag < 256 ^ 2 then 1
  else if mag < 256 ^ 4 then 2
  else 3

/-- Integer encoding (spec §4.4 step 1): canonicalize to sign and
magnitude. -/
def intSignMag (v : IntValue) : Bool × Nat :=
  match v with
  | .signed s =>
    let c := s.canonicalized
    if c < 0 then (true, (-c).toNat) else (false, c.toNat)
  | .unsigned u => (false, u.canonicalized)

/-- The wire bytes for an integer of sign `neg` and magnitude `mag`. -/
def encIntBytes (neg : Bool) (mag : Nat) : List Nat :=
  if mag ≤ 63 then [0x80 + (if neg then 64 else 0) + mag]
  else (0x10 + (if neg then 8 else 0) + 2 * minIntExp mag) ::
    natToBE (2 ^ minIntExp mag) mag

def encodeIntValue (v : IntValue) : List Nat :=
  encIntBytes (intSignMag v).1 (intSignMag v).2

/-- The bool header byte: `TYPE_BITS` with `VALUE_BIT` or-ed in when the
value is true (`Encoder::encode_bool_header`, `encoder/bool.rs`
lines 28–41). -/
def boolHeaderByte (value : Bool) : Nat :=
  BoolHeader.TYPE_BITS ||| (if value then BoolHeader.VALUE_BIT else 0)

/-! `encode_value`: header followed by body, recursively. -/
mutual
def encodeValue : Value → List Nat
  | .int v => encodeIntValue v
  | .str bs => stringHeaderBytes bs.length ++ bs
  | .seq items => varLenHeaderBytes 0x40 items.length ++ encodeList items
  | .map entries => mapHeaderBytes entries.length ++ encodePairs entries
  | .float (.f32 bits) => 0x04 :: natToBE 4 bits
  | .float (.f64 bits) => 0x05 :: natToBE 8 bits
  | .bytes bs => bytesHeaderBytes bs.length ++ bs
  | .bool b => [boolHeaderByte b]
  | .unit => [0x00]
  | .null => [0x01]

def encodeList : List Value → List Nat
  | [] => []
  | v :: vs => encodeValue v ++ encodeList vs

def encodePairs : List (Value × Value) → List Nat
  | [] => []
  | (k, v) :: rest => encodeValue k ++ encodeValue v ++ encodePairs rest
end

/-! ## Errors

The error taxonomy (`lilliput-core/src/error.rs`, absent from the
excerpt; modelled from the spec §7).  Errors optionally carry the byte
position of the start of the offending datum.  `outOfFuel` is an
artifact of the embedding: the recursive decoder takes a fuel bound
which, at or above the nesting depth of the input, is never exhausted. -/

inductive Err where
  | eof
  | invalidType (unexpected expected : Marker) (pos : Option Nat)
  | invalidUtf8 (pos : Option Nat)
  | numberOutOfRange (pos : Option Nat)
  | invalidHeader (pos : Option Nat)
  | outOfFuel
  deriving DecidableEq, Repr

/-! ## Decoder state and reader primitives

`Decoder { reader, pos }` (`decoder.rs` lines 22–26) over a slice
reader: `rest` is the reader's remaining input, `pos` the decoder's
byte-position counter. -/

structure DState where
  rest : List Nat
  pos : Nat
  deriving DecidableEq, Repr

/-- `Reader::peek_one` on a slice reader: the next byte, without
advancing. -/
def peekByte (s : DState) : Except Err (Nat × DState) :=
  match s.rest with
  | [] => .error .eof
  | b :: _ => .ok (b, s)

/-- `Decoder::pull_byte` (`decoder.rs` lines 152–159): read one byte and
advance `pos`. -/
def pullByte (s : DState) : Except Err (Nat × DState) :=
  match s.rest with
  | [] => .error .eof
  | b :: t => .ok (b, ⟨t, s.pos + 1⟩)

/-- `Decoder::pull_bytes_into` (`decoder.rs` lines 161–174): fill a
buffer of `n` bytes exactly; an empty buffer returns `Ok` without
touching the reader; otherwise `read_into` fails fast on short input and
`pos` advances by `n`. -/
def pullBytesInto (n : Nat) (s : DState) : Except Err (List Nat × DState) :=
  if n = 0 then .ok ([], s)
  else if n ≤ s.rest.length then .ok (s.rest.take n, ⟨s.rest.drop n, s.pos + n⟩)
  else .error .eof

/-- `Decoder::pull_bytes` (`decoder.rs` lines 176–189): `Reader::read`
of `n` bytes (borrow or copy) and advance `pos` by `n`. -/
def pullBytes (n : Nat) (s : DState) : Except Err (List Nat × DState) :=
  if n ≤ s.rest.length then .ok (s.rest.take n, ⟨s.rest.drop n, s.pos + n⟩)
  else .error .eof

/-- `Reader::skip` on a slice reader: the reader advances past `n`
bytes; the decoder's `pos` is untouched (the caller is responsible for
accounting). -/
def readerSkip (n : Nat) (s : DState) : Except Err DState :=
  if n ≤ s.rest.length then .ok ⟨s.rest.drop n, s.pos⟩
  else .error .eof

/-- `Decoder::pull_len_bytes` generalized over the platform's index
maximum (`decoder.rs` lines 191–203): remember the position, read
`width` wire bytes big-endian into the low end of a zero-initialized
8-byte buffer, interpret as `u64`, and convert to the index type;
overflow yields `NumberOutOfRange` carrying the remembered position. -/
def pullLenBytesGen (usizeMax width : Nat) (s : DState) : Except Err (Nat × DState) := do
  let pos := s.pos
  let (bs, s1) ← pullBytesInto width s
  let n := beNat bs
  if n ≤ usizeMax then pure (n, s1)
  else .error (.numberOutOfRange (some pos))

/-- The platform index maximum: `usize::MAX` on a 64-bit platform. -/
def USIZE_MAX : Nat := 2 ^ 64 - 1

/-- `Decoder::pull_len_bytes` on the 64-bit platform. -/
def pullLenBytes (width : Nat) (s : DState) : Except Err (Nat × DState) :=
  pullLenBytesGen USIZE_MAX width s

/-- `Marker::validate` composed into `Decoder::pull_byte_expecting`
(`decoder.rs` lines 136–150): read a byte and check its detected marker
against the expected one; a mismatch is `InvalidType` carrying the
position of the byte. -/
def pullByteExpecting (m : Marker) (s : DState) : Except Err (Nat × DState) := do
  let pos := s.pos
  let (b, s1) ← pullByte s
  if Marker.detect b = m then pure (b, s1)
  else .error (.invalidType (Marker.detect b) m (some pos))

/-! ## Header decoders -/

/-- `Decoder::peek_marker` (`decoder.rs` lines 60–62): detect the marker
of the next byte without advancing. -/
def peekMarker (s : DState) : Except Err (Marker × DState) := do
  let (b, s1) ← peekByte s
  pure (Marker.detect b, s1)

/-- Modelled from the spec: `decoder/int.rs` is absent.  A compact int
header byte carries sign and 6-bit magnitude; an extended one carries
sign and a 2-bit width exponent. -/
def decodeIntHeader (s : DState) : Except Err (IntHeader × DState) := do
  let (b, s1) ← pullByteExpecting .int s
  if 0x80 ≤ b then
    pure (.compact (b &&& 64 ≠ 0) (b &&& 63), s1)
  else
    pure (.extended (b &&& 8 ≠ 0) ((b >>> 1) &&& 3), s1)

/-- Modelled from the spec: `decoder/string.rs` is absent.  Compact
string headers carry a 5-bit length; extended ones a 2-bit length-width
exponent followed by `2^e` big-endian length bytes. -/
def decodeStringHeader (s : DState) : Except Err (StringHeader × DState) := do
  let (b, s1) ← pullByteExpecting .string s
  if 0x20 ≤ b then
    pure (.compact (b &&& 31), s1)
  else
    let (len, s2) ← pullLenBytes (2 ^ (b &&& 3)) s1
    pure (.extended len, s2)

/-- `Decoder::decode_seq_header` (`decoder/seq.rs` lines 37–66): the
compact-variant bit selects a 3-bit inline length; otherwise the length
width is one plus the low bits and that many big-endian length bytes
follow. -/
def decodeSeqHeader (s : DState) : Except Err (SeqHeader × DState) := do
  let (b, s1) ← pullByteExpecting .seq s
  if b &&& SeqHeader.COMPACT_VARIANT_BIT ≠ 0 then
    pure (.compact (b &&& SeqHeader.COMPACT_LEN_BITS), s1)
  else
    let lenWidth := 1 + (b &&& SeqHeader.EXTENDED_LEN_WIDTH_BITS)
    let (len, s2) ← pullLenBytes lenWidth s1
    pure (.extended len, s2)

/-- Modelled from the spec: `decoder/map.rs` is absent.  Per the spec's
wire table (§6) a compact map header carries a 3-bit inline length,
and an extended one a 2-bit length-width exponent with the length in
the `2^e` big-endian bytes that follow, exponent-coded like the string
and bytes headers. -/
def decodeMapHeader (s : DState) : Except Err (MapHeader × DState) := do
  let (b, s1) ← pullByteExpecting .map s
  if b &&& MapHeader.COMPACT_VARIANT_BIT ≠ 0 then
    pure (.compact (b &&& MapHeader.COMPACT_LEN_BITS), s1)
  else
    let lenWidth := 1 <<< (b &&& MapHeader.LEN_WIDTH_EXPONENT_BITS)
    let (len, s2) ← pullLenBytes lenWidth s1
    pure (.extended len, s2)

/-- Modelled from the spec: `decoder/float.rs` is absent; the precision
bit selects single or double. -/
def decodeFloatHeader (s : DState) : Except Err (FloatHeader × DState) := do
  let (b, s1) ← pullByteExpecting .float s
  if b &&& 1 = 0 then pure (.single, s1) else pure (.double, s1)

/-- `Decoder::decode_bytes_header` (`decoder/bytes.rs` lines 46–58): the
low bits are a length-width exponent, `2^e` big-endian length bytes
follow, and the returned header is `BytesHeader::for_len(len)`. -/
def decodeBytesHeader (s : DState) : Except Err (BytesHeader × DState) := do
  let (b, s1) ← pullByteExpecting .bytes s
  let lenWidthExponent := b &&& BytesHeader.LEN_WIDTH_EXPONENT_BITS
  let lenWidth := 1 <<< lenWidthExponent
  let (len, s2) ← pullLenBytes lenWidth s1
  pure (BytesHeader.for_len len, s2)

/-- Modelled from the spec: `decoder/bool.rs` is absent; the value is the
header byte's value bit. -/
def decodeBoolHeader (s : DState) : Except Err (BoolHeader × DState) := do
  let (b, s1) ← pullByteExpecting .bool s
  pure (⟨b &&& BoolHeader.VALUE_BIT ≠ 0⟩, s1)

/-- Modelled from the spec: `decoder/unit.rs` is absent. -/
def decodeUnitHeader (s : DState) : Except Err (UnitHeader × DState) := do
  let (_, s1) ← pullByteExpecting .unit s
  pure (⟨⟩, s1)

/-- Modelled from the spec: `decoder/null.rs` is absent. -/
def decodeNullHeader (s : DState) : Except Err (NullHeader × DState) := do
  let (_, s1) ← pullByteExpecting .null s
  pure (⟨⟩, s1)

/-- `Decoder::decode_header` (`decoder.rs` lines 67–79): peek the
marker, then run the per-kind header decoder. -/
def decodeHeader (s : DState) : Except Err (Header × DState) := do
  let (m, s0) ← peekMarker s
  match m with
  | .int => do let (h, s1) ← decodeIntHeader s0; pure (.int h, s1)
  | .string => do let (h, s1) ← decodeStringHeader s0; pure (.string h, s1)
  | .seq => do let (h, s1) ← decodeSeqHeader s0; pure (.seq h, s1)
  | .map => do let (h, s1) ← decodeMapHeader s0; pure (.map h, s1)
  | .float => do let (h, s1) ← decodeFloatHeader s0; pure (.float h, s1)
  | .bytes => do let (h, s1) ← decodeBytesHeader s0; pure (.bytes h, s1)
  | .bool => do let (h, s1) ← decodeBoolHeader s0; pure (.bool h, s1)
  | .unit => do let (h, s1) ← decodeUnitHeader s0; pure (.unit h, s1)
  | .null => do let (h, s1) ← decodeNullHeader s0; pure (.null h, s1)

/-! ## Body decoders -/

/-- Modelled from the spec: the int body decoder (`decoder/int.rs` is
absent) combines the big-endian magnitude of the declared width with the
header's sign bit into the canonical `IntValue`; a negative magnitude
beyond `i64` is `NumberOutOfRange`. -/
def decodeIntValueOf (h : IntHeader) (s : DState) : Except Err (IntValue × DState) := do
  match h with
  | .compact sign mag =>
    if sign then pure (.signed (.i64 (-(mag : Int))), s)
    else pure (.unsigned (.u64 mag), s)
  | .extended sign wexp => do
    let pos := s.pos
    let (bs, s1) ← pullBytesInto (2 ^ wexp) s
    let mag := beNat bs
    if sign then
      if mag ≤ 2 ^ 63 then pure (.signed (.i64 (-(mag : Int))), s1)
      else .error (.numberOutOfRange (some pos))
    else pure (.unsigned (.u64 mag), s1)

/-- Last-occurrence-wins insertion into an ordered map, keyed by the
value equality; an existing key keeps its stored key and position.
Modelled from the spec §3 (map decoding: "last occurrence wins on
decode, but the decoder never invents order"). -/
def mapInsert (entries : List (Value × Value)) (k v : Value) : List (Value × Value) :=
  match entries with
  | [] => [(k, v)]
  | (k0, v0) :: rest =>
    if Value.beq k0 k then (k0, v) :: rest
    else (k0, v0) :: mapInsert rest k v

/-! `Decoder::decode_value` and its body decoders, fuel-indexed.
`decode_value` = `decode_header` then `decode_value_of` (`decoder.rs`
lines 52–55, 109–121); sequence and map bodies decode their children
recursively (`decoder/seq.rs`; `decoder/map.rs` modelled from the
spec).  The fuel only bounds the nesting depth of headers; at or above
the depth of the input it never runs out. -/
def decodeItemsGo (child : DState → Except Err (Value × DState)) :
    Nat → DState → Except Err (List Value × DState)
  | 0, s => pure ([], s)
  | count + 1, s => do
    let (v, s1) ← child s
    let (vs, s2) ← decodeItemsGo child count s1
    pure (v :: vs, s2)

def decodePairsGo (child : DState → Except Err (Value × DState)) :
    Nat → DState → Except Err (List (Value × Value) × DState)
  | 0, s => pure ([], s)
  | count + 1, s => do
    let (k, s1) ← child s
    let (v, s2) ← child s1
    let (ps, s3) ← decodePairsGo child count s2
    pure ((k, v) :: ps, s3)

def decodeValueOfGo (child : DState → Except Err (Value × DState)) :
    Header → DState → Except Err (Value × DState)
  | .int h, s => do
    let (v, s1) ← decodeIntValueOf h s
    pure (.int v, s1)
  | .string h, s => do
    let (bs, s1) ← pullBytes h.len s
    if utf8Valid bs then pure (.str bs, s1)
    else .error (.invalidUtf8 none)
  | .seq h, s => do
    let (items, s1) ← decodeItemsGo child h.len s
    pure (.seq items, s1)
  | .map h, s => do
    let (pairs, s1) ← decodePairsGo child h.len s
    pure (.map (pairs.foldl (fun acc p => mapInsert acc p.1 p.2) []), s1)
  | .float .single, s => do
    let (bs, s1) ← pullBytesInto 4 s
    pure (.float (.f32 (beNat bs)), s1)
  | .float .double, s => do
    let (bs, s1) ← pullBytesInto 8 s
    pure (.float (.f64 (beNat bs)), s1)
  | .bytes h, s => do
    let (bs, s1) ← pullBytes h.len s
    pure (.bytes bs, s1)
  | .bool h, s => pure (.bool h.value, s)
  | .unit _, s => pure (.unit, s)
  | .null _, s => pure (.null, s)

def decodeValue : Nat → DState → Except Err (Value × DState)
  | 0, _ => .error .outOfFuel
  | n + 1, s => do
    let (h, s1) ← decodeHeader s
    decodeValueOfGo (fun s' => decodeValue n s') h s1

/-- `Decoder::decode_value_of(header)` at fuel `n`: the per-kind body
decoder, decoding children with `decodeValue n`. -/
def decodeValueOf (n : Nat) : Header → DState → Except Err (Value × DState) :=
  decodeValueOfGo (fun s' => decodeValue n s')

def decodeItems (n : Nat) : Nat → DState → Except Err (List Value × DState) :=
  decodeItemsGo (fun s' => decodeValue n s')

def decodePairs (n : Nat) : Nat → DState → Except Err (List (Value × Value) × DState) :=
  decodePairsGo (fun s' => decodeValue n s')

theorem decodeItemsGo_eq (n : Nat) :
    decodeItemsGo (fun s' => decodeValue n s') = decodeItems n := rfl

theorem decodePairsGo_eq (n : Nat) :
    decodePairsGo (fun s' => decodeValue n s') = decodePairs n := rfl


/-! ## Skipping

`Decoder::skip_value` = `decode_header` then `skip_value_of`
(`decoder.rs` lines 85–104).  `skip_bytes_value_of` forwards the body
length to `Reader::skip` (`decoder/bytes.rs` lines 64–69) — the reader
advances but the decoder's `pos` is not updated.  The string skipper
(`decoder/string.rs`, absent) is modelled the same way; int and float
skippers (absent) are modelled as consuming reads per spec §4.5. -/
def skipItemsGo (child : DState → Except Err DState) :
    Nat → DState → Except Err DState
  | 0, s => pure s
  | count + 1, s => do
    let s1 ← child s
    skipItemsGo child count s1

def skipPairsGo (child : DState → Except Err DState) :
    Nat → DState → Except Err DState
  | 0, s => pure s
  | count + 1, s => do
    let s1 ← child s
    let s2 ← child s1
    skipPairsGo child count s2

def skipValueOfGo (child : DState → Except Err DState) :
    Header → DState → Except Err DState
  | .int h, s =>
    match h with
    | .compact _ _ => pure s
    | .extended _ wexp => do
      let (_, s1) ← pullBytesInto (2 ^ wexp) s
      pure s1
  | .string h, s => readerSkip h.len s
  | .seq h, s => skipItemsGo child h.len s
  | .map h, s => skipPairsGo child h.len s
  | .float .single, s => do
    let (_, s1) ← pullBytesInto 4 s
    pure s1
  | .float .double, s => do
    let (_, s1) ← pullBytesInto 8 s
    pure s1
  | .bytes h, s => readerSkip h.len s
  | .bool _, s => pure s
  | .unit _, s => pure s
  | .null _, s => pure s

def skipValue : Nat → DState → Except Err DState
  | 0, _ => .error .outOfFuel
  | n + 1, s => do
    let (h, s1) ← decodeHeader s
    skipValueOfGo (fun s' => skipValue n s') h s1

/-- `Decoder::skip_value_of(header)` at fuel `n`. -/
def skipValueOf (n : Nat) : Header → DState → Except Err DState :=
  skipValueOfGo (fun s' => skipValue n s')


/-- The header a minimality-driven constructor picks for a seq of `len`
children (`SeqHeader::compact` when the 3-bit field suffices). -/
def seqHeaderFor (len : Nat) : SeqHeader :=
  if len ≤ 7 then .compact len else .extended len

def mapHeaderFor (len : Nat) : MapHeader :=
  if len ≤ 7 then .compact len else .extended len

def stringHeaderFor (len : Nat) : StringHeader :=
  if len ≤ 31 then .compact len else .extended len

/-! ## Marker detection on encoder-produced bytes -/

theorem detect_int_compact {b : Nat} (h : 0x80 ≤ b) : Marker.detect b = .int := by
  unfold Marker.detect
  rw [if_pos h]

theorem detect_filler {b : Nat} (h1 : 0x60 ≤ b) (h2 : b < 0x80) :
    Marker.detect b = .bytes := by
  have n1 : ¬0x80 ≤ b := by omega
  simp [Marker.detect, n1, h1]

theorem detect_map {b : Nat} (h1 : 0x50 ≤ b) (h2 : b < 0x60) : Marker.detect b = .map := by
  have n1 : ¬0x80 ≤ b := by omega
  have n2 : ¬0x60 ≤ b := by omega
  simp [Marker.detect, n1, n2, h1]

theorem detect_seq {b : Nat} (h1 : 0x40 ≤ b) (h2 : b < 0x50) : Marker.detect b = .seq := by
  have n1 : ¬0x80 ≤ b := by omega
  have n2 : ¬0x60 ≤ b := by omega
  have n3 : ¬0x50 ≤ b := by omega
  simp [Marker.detect, n1, n2, n3, h1]

theorem detect_string_compact {b : Nat} (h1 : 0x20 ≤ b) (h2 : b < 0x40) :
    Marker.detect b = .string := by
  have n1 : ¬0x80 ≤ b := by omega
  have n2 : ¬0x60 ≤ b := by omega
  have n3 : ¬0x50 ≤ b := by omega
  have n4 : ¬0x40 ≤ b := by omega
  simp [Marker.detect, n1, n2, n3, n4, h1]

theorem detect_int_extended {b : Nat} (h1 : 0x10 ≤ b) (h2 : b < 0x20) :
    Marker.detect b = .int := by
  have n1 : ¬0x80 ≤ b := by omega
  have n2 : ¬0x60 ≤ b := by omega
  have n3 : ¬0x50 ≤ b := by omega
  have n4 : ¬0x40 ≤ b := by omega
  have n5 : ¬0x20 ≤ b := by omega
  simp [Marker.detect, n1, n2, n3, n4, n5, h1]

theorem detect_bytes {b : Nat} (h1 : 0x0C ≤ b) (h2 : b < 0x10) :
    Marker.detect b = .bytes := by
  have n1 : ¬0x80 ≤ b := by omega
  have n2 : ¬0x60 ≤ b := by omega
  have n3 : ¬0x50 ≤ b := by omega
  have n4 : ¬0x40 ≤ b := by omega
  have n5 : ¬0x20 ≤ b := by omega
  have n6 : ¬0x10 ≤ b := by omega
  simp [Marker.detect, n1, n2, n3, n4, n5, n6, h1]

theorem detect_string_extended {b : Nat} (h1 : 0x08 ≤ b) (h2 : b < 0x0C) :
    Marker.detect b = .string := by
  have n1 : ¬0x80 ≤ b := by omega
  have n2 : ¬0x60 ≤ b := by omega
  have n3 : ¬0x50 ≤ b := by omega
  have n4 : ¬0x40 ≤ b := by omega
  have n5 : ¬0x20 ≤ b := by omega
  have n6 : ¬0x10 ≤ b := by omega
  have n7 : ¬0x0C ≤ b := by omega
  simp [Marker.detect, n1, n2, n3, n4, n5, n6, n7, h1]

theorem detect_float {b : Nat} (h1 : 0x04 ≤ b) (h2 : b < 0x08) :
    Marker.detect b = .float := by
  have n1 : ¬0x80 ≤ b := by omega
  have n2 : ¬0x60 ≤ b := by omega
  have n3 : ¬0x50 ≤ b := by omega
  have n4 : ¬0x40 ≤ b := by omega
  have n5 : ¬0x20 ≤ b := by omega
  have n6 : ¬0x10 ≤ b := by omega
  have n7 : ¬0x0C ≤ b := by omega
  have n8 : ¬0x08 ≤ b := by omega
  simp [Marker.detect, n1, n2, n3, n4, n5, n6, n7, n8, h1]

theorem detect_bool {b : Nat} (h1 : 0x02 ≤ b) (h2 : b < 0x04) :
    Marker.detect b = .bool := by
  have n1 : ¬0x80 ≤ b := by omega
  have n2 : ¬0x60 ≤ b := by omega
  have n3 : ¬0x50 ≤ b := by omega
  have n4 : ¬0x40 ≤ b := by omega
  have n5 : ¬0x20 ≤ b := by omega
  have n6 : ¬0x10 ≤ b := by omega
  have n7 : ¬0x0C ≤ b := by omega
  have n8 : ¬0x08 ≤ b := by omega
  have n9 : ¬0x04 ≤ b := by omega
  simp [Marker.detect, n1, n2, n3, n4, n5, n6, n7, n8, n9, h1]

theorem detect_null : Marker.detect 1 = .null := by decide

theorem detect_unit : Marker.detect 0 = .unit := by decide

/-! ## Bit-field extraction on encoder-produced bytes -/

theorem bits_exp_0x0C : ∀ e < 4, (0x0C + e) &&& 3 = e := by decide

theorem bits_exp_0x08 : ∀ e < 4, (0x08 + e) &&& 3 = e := by decide

theorem bits_seq_ext : ∀ k < 8, (0x40 + k) &&& 7 = k ∧ (0x40 + k) &&& 8 = 0 := by decide

theorem bits_seq_compact : ∀ k < 8, (0x48 + k) &&& 7 = k ∧ (0x48 + k) &&& 8 ≠ 0 := by
  decide

theorem bits_map_exp : ∀ e < 4, (0x50 + e) &&& 3 = e ∧ (0x50 + e) &&& 8 = 0 := by decide

theorem bits_map_compact : ∀ k < 8, (0x58 + k) &&& 7 = k ∧ (0x58 + k) &&& 8 ≠ 0 := by
  decide

theorem bits_string_compact : ∀ l < 32, (0x20 + l) &&& 31 = l := by decide

theorem bits_int_compact :
    ∀ m < 64, (0x80 + m) &&& 64 = 0 ∧ (0x80 + m) &&& 63 = m ∧
      (0xC0 + m) &&& 64 ≠ 0 ∧ (0xC0 + m) &&& 63 = m := by decide

theorem bits_int_ext :
    ∀ e < 4, ((0x10 + 2 * e) >>> 1) &&& 3 = e ∧ (0x10 + 2 * e) &&& 8 = 0 ∧
      ((0x18 + 2 * e) >>> 1) &&& 3 = e ∧ (0x18 + 2 * e) &&& 8 ≠ 0 := by decide

theorem shiftLeft_one_exp (e : Nat) : 1 <<< e = 2 ^ e := by
  simp [Nat.shiftLeft_eq]

/-! ## Minimal-width selection -/

theorem minLenExp_le (len : Nat) : minLenExp len ≤ 3 := by
  unfold minLenExp
  split
  · omega
  split
  · omega
  split <;> omega

theorem lt_pow_minLenExp {len : Nat} (h : len < 2 ^ 64) :
    len < 256 ^ 2 ^ minLenExp len := by
  unfold minLenExp
  split
  · simpa using ‹len < 256 ^ 1›
  split
  · simpa using ‹len < 256 ^ 2›
  split
  · simpa using ‹len < 256 ^ 4›
  · have h8 : (256 : Nat) ^ 2 ^ 3 = 2 ^ 64 := by norm_num
    omega

theorem minLenWidth_bounds (len : Nat) :
    1 ≤ minLenWidth len ∧ minLenWidth len ≤ 8 := by
  unfold minLenWidth
  split
  · omega
  split
  · omega
  split
  · omega
  split
  · omega
  split
  · omega
  split
  · omega
  split <;> omega

theorem lt_pow_minLenWidth {len : Nat} (h : len < 2 ^ 64) :
    len < 256 ^ minLenWidth len := by
  unfold minLenWidth
  split
  · assumption
  split
  · assumption
  split
  · assumption
  split
  · assumption
  split
  · assumption
  split
  · assumption
  split
  · assumption
  · have h8 : (256 : Nat) ^ 8 = 2 ^ 64 := by norm_num
    omega

theorem minIntExp_le (m : Nat) : minIntExp m ≤ 3 := by
  unfold minIntExp
  split
  · omega
  split
  · omega
  split <;> omega

theorem lt_pow_minIntExp {m : Nat} (h : m < 2 ^ 64) :
    m < 256 ^ 2 ^ minIntExp m := by
  unfold minIntExp
  split
  · simpa using ‹m < 256 ^ 1›
  split
  · simpa using ‹m < 256 ^ 2›
  split
  · simpa using ‹m < 256 ^ 4›
  · have h8 : (256 : Nat) ^ 2 ^ 3 = 2 ^ 64 := by norm_num
    omega

/-! ## Reader-primitive lemmas -/

theorem pullBytesInto_append {n : Nat} (bs t : List Nat) (p : Nat)
    (h : bs.length = n) :
    pullBytesInto n ⟨bs ++ t, p⟩ = .ok (bs, ⟨t, p + n⟩) := by
  subst h
  unfold pullBytesInto
  by_cases h0 : bs.length = 0
  · have hbs : bs = [] := List.length_eq_zero.mp h0
    subst hbs
    simp
  · rw [if_neg h0, if_pos (by simp)]
    simp [List.take_left, List.drop_left]

theorem pullBytes_append {n : Nat} (bs t : List Nat) (p : Nat)
    (h : bs.length = n) :
    pullBytes n ⟨bs ++ t, p⟩ = .ok (bs, ⟨t, p + n⟩) := by
  subst h
  unfold pullBytes
  rw [if_pos (by simp)]
  simp [List.take_left, List.drop_left]

theorem pullLenBytes_natToBE {w len : Nat} (hw : w ≤ 8) (hlen : len < 256 ^ w)
    (t : List Nat) (p : Nat) :
    pullLenBytes w ⟨natToBE w len ++ t, p⟩ = .ok (len, ⟨t, p + w⟩) := by
  unfold pullLenBytes pullLenBytesGen
  rw [pullBytesInto_append (natToBE w len) t p (natToBE_length w len)]
  have hbe : beNat (natToBE w len) = len := beNat_natToBE_of_lt hlen
  have hmax : len ≤ USIZE_MAX := by
    have hpow : (256 : Nat) ^ w ≤ 256 ^ 8 := Nat.pow_le_pow_right (by norm_num) hw
    have h8 : (256 : Nat) ^ 8 = 2 ^ 64 := by norm_num
    unfold USIZE_MAX
    omega
  simp [bind, Except.bind, pure, Except.pure, hbe, hmax]

/-! ## Header round-trip lemmas -/

theorem wf_canon_signed {s : SignedIntValue} (h : s.Wf = true) :
    -(2 ^ 63) ≤ s.canonicalized ∧ s.canonicalized < 2 ^ 63 := by
  cases s <;> simp [SignedIntValue.Wf, SignedIntValue.canonicalized] at h ⊢ <;> omega

theorem wf_canon_unsigned {u : UnsignedIntValue} (h : u.Wf = true) :
    u.canonicalized < 2 ^ 64 := by
  cases u <;> simp [UnsignedIntValue.Wf, UnsignedIntValue.canonicalized] at h ⊢ <;> omega

theorem decodeHeader_seq {len : Nat} (hlen : len < 2 ^ 64) (t : List Nat) (p : Nat) :
    decodeHeader ⟨varLenHeaderBytes 0x40 len ++ t, p⟩ =
      .ok (.seq (seqHeaderFor len), ⟨t, p + (varLenHeaderBytes 0x40 len).length⟩) := by
  unfold varLenHeaderBytes seqHeaderFor
  by_cases hc : len ≤ 7
  · rw [if_pos hc, if_pos hc]
    have hb : 0x40 + SeqHeader.COMPACT_VARIANT_BIT + len = 0x48 + len := by
      unfold SeqHeader.COMPACT_VARIANT_BIT
      omega
    rw [hb]
    have hdet : Marker.detect (0x48 + len) = .seq := detect_seq (by omega) (by omega)
    have hbits := bits_seq_compact len (by omega)
    simp [decodeHeader, peekMarker, peekByte, decodeSeqHeader, pullByteExpecting,
      pullByte, bind, Except.bind, pure, Except.pure, hdet, hbits.1, hbits.2,
      SeqHeader.COMPACT_LEN_BITS, SeqHeader.COMPACT_VARIANT_BIT]
  · rw [if_neg hc, if_neg hc]
    have hwb := minLenWidth_bounds len
    have hpow := lt_pow_minLenWidth hlen
    have hdet : Marker.detect (0x40 + (minLenWidth len - 1)) = .seq :=
      detect_seq (by omega) (by omega)
    have hbits := bits_seq_ext (minLenWidth len - 1) (by omega)
    have hw1 : 1 + (minLenWidth len - 1) = minLenWidth len := by omega
    simp only [List.cons_append]
    simp only [decodeHeader, peekMarker, peekByte, decodeSeqHeader, pullByteExpecting,
      pullByte, bind, Except.bind, pure, Except.pure, hdet, hbits.1, hbits.2,
      SeqHeader.EXTENDED_LEN_WIDTH_BITS, SeqHeader.COMPACT_VARIANT_BIT,
      ite_true, ite_false]
    simp only [hbits.2, if_neg, hw1]
    rw [pullLenBytes_natToBE (by omega) hpow t (p + 1)]
    simp [bind, Except.bind, pure, Except.pure, natToBE_length]
    omega

theorem decodeHeader_map {len : Nat} (hlen : len < 2 ^ 64) (t : List Nat) (p : Nat) :
    decodeHeader ⟨mapHeaderBytes len ++ t, p⟩ =
      .ok (.map (mapHeaderFor len), ⟨t, p + (mapHeaderBytes len).length⟩) := by
  unfold mapHeaderBytes mapHeaderFor
  by_cases hc : len ≤ 7
  · rw [if_pos hc, if_pos hc]
    have hb : 0x50 + MapHeader.COMPACT_VARIANT_BIT + len = 0x58 + len := by
      unfold MapHeader.COMPACT_VARIANT_BIT
      omega
    rw [hb]
    have hdet : Marker.detect (0x58 + len) = .map := detect_map (by omega) (by omega)
    have hbits := bits_map_compact len (by omega)
    simp [decodeHeader, peekMarker, peekByte, decodeMapHeader, pullByteExpecting,
      pullByte, bind, Except.bind, pure, Except.pure, hdet, hbits.1, hbits.2,
      MapHeader.COMPACT_LEN_BITS, MapHeader.COMPACT_VARIANT_BIT]
  · rw [if_neg hc, if_neg hc]
    have he := minLenExp_le len
    have hpow := lt_pow_minLenExp hlen
    have hdet : Marker.detect (0x50 + minLenExp len) = .map :=
      detect_map (by omega) (by omega)
    have hbits := bits_map_exp (minLenExp len) (by omega)
    have hwle : 2 ^ minLenExp len ≤ 8 := by
      calc 2 ^ minLenExp len ≤ 2 ^ 3 := Nat.pow_le_pow_right (by omega) he
        _ = 8 := by norm_num
    simp only [List.cons_append]
    simp only [decodeHeader, peekMarker, peekByte, decodeMapHeader,
      pullByteExpecting, pullByte, bind, Except.bind, pure, Except.pure, hdet,
      hbits.1, hbits.2, MapHeader.LEN_WIDTH_EXPONENT_BITS,
      MapHeader.COMPACT_VARIANT_BIT, shiftLeft_one_exp, ite_true, ite_false]
    rw [pullLenBytes_natToBE hwle hpow t (p + 1)]
    simp [bind, Except.bind, pure, Except.pure, natToBE_length]
    omega

theorem decodeHeader_string {len : Nat} (hlen : len < 2 ^ 64) (t : List Nat) (p : Nat) :
    decodeHeader ⟨stringHeaderBytes len ++ t, p⟩ =
      .ok (.string (stringHeaderFor len), ⟨t, p + (stringHeaderBytes len).length⟩) := by
  unfold stringHeaderBytes stringHeaderFor
  by_cases hc : len ≤ 31
  · rw [if_pos hc, if_pos hc]
    have hdet : Marker.detect (0x20 + len) = .string :=
      detect_string_compact (by omega) (by omega)
    have hbits := bits_string_compact len (by omega)
    simp [decodeHeader, peekMarker, peekByte, decodeStringHeader, pullByteExpecting,
      pullByte, bind, Except.bind, pure, Except.pure, hdet, hbits,
      if_pos (show 0x20 ≤ 0x20 + len by omega)]
  · rw [if_neg hc, if_neg hc]
    have he := minLenExp_le len
    have hpow := lt_pow_minLenExp hlen
    have hdet : Marker.detect (0x08 + minLenExp len) = .string :=
      detect_string_extended (by omega) (by omega)
    have hbits := bits_exp_0x08 (minLenExp len) (by omega)
    have hwle : 2 ^ minLenExp len ≤ 8 := by
      calc 2 ^ minLenExp len ≤ 2 ^ 3 := Nat.pow_le_pow_right (by omega) he
        _ = 8 := by norm_num
    simp only [List.cons_append]
    simp only [decodeHeader, peekMarker, peekByte, decodeStringHeader,
      pullByteExpecting, pullByte, bind, Except.bind, pure, Except.pure, hdet, hbits,
      ite_true, ite_false]
    rw [if_neg (by omega), pullLenBytes_natToBE hwle hpow t (p + 1)]
    simp [bind, Except.bind, pure, Except.pure, natToBE_length]
    omega

theorem decodeHeader_bytes {len : Nat} (hlen : len < 2 ^ 64) (t : List Nat) (p : Nat) :
    decodeHeader ⟨bytesHeaderBytes len ++ t, p⟩ =
      .ok (.bytes (BytesHeader.for_len len), ⟨t, p + (bytesHeaderBytes len).length⟩) := by
  unfold bytesHeaderBytes
  have he := minLenExp_le len
  have hpow := lt_pow_minLenExp hlen
  have hdet : Marker.detect (0x0C + minLenExp len) = .bytes :=
    detect_bytes (by omega) (by omega)
  have hbits := bits_exp_0x0C (minLenExp len) (by omega)
  have hwle : 2 ^ minLenExp len ≤ 8 := by
    calc 2 ^ minLenExp len ≤ 2 ^ 3 := Nat.pow_le_pow_right (by omega) he
      _ = 8 := by norm_num
  simp only [List.cons_append]
  simp only [decodeHeader, peekMarker, peekByte, decodeBytesHeader,
    pullByteExpecting, pullByte, bind, Except.bind, pure, Except.pure, hdet, hbits,
    BytesHeader.LEN_WIDTH_EXPONENT_BITS, shiftLeft_one_exp, ite_true, ite_false]
  rw [pullLenBytes_natToBE hwle hpow t (p + 1)]
  simp [bind, Except.bind, pure, Except.pure, natToBE_length]
  omega

theorem decodeHeader_bool (b : Bool) (t : List Nat) (p : Nat) :
    decodeHeader ⟨boolHeaderByte b :: t, p⟩ = .ok (.bool ⟨b⟩, ⟨t, p + 1⟩) := by
  cases b <;>
    simp [decodeHeader, peekMarker, peekByte, decodeBoolHeader, pullByteExpecting,
      pullByte, bind, Except.bind, pure, Except.pure, boolHeaderByte,
      BoolHeader.TYPE_BITS, BoolHeader.VALUE_BIT, Marker.detect]

theorem decodeHeader_unit (t : List Nat) (p : Nat) :
    decodeHeader ⟨0 :: t, p⟩ = .ok (.unit ⟨⟩, ⟨t, p + 1⟩) := by
  simp [decodeHeader, peekMarker, peekByte, decodeUnitHeader, pullByteExpecting,
    pullByte, bind, Except.bind, pure, Except.pure, Marker.detect]

theorem decodeHeader_null (t : List Nat) (p : Nat) :
    decodeHeader ⟨1 :: t, p⟩ = .ok (.null ⟨⟩, ⟨t, p + 1⟩) := by
  simp [decodeHeader, peekMarker, peekByte, decodeNullHeader, pullByteExpecting,
    pullByte, bind, Except.bind, pure, Except.pure, Marker.detect]

theorem decodeHeader_float32 (t : List Nat) (p : Nat) :
    decodeHeader ⟨4 :: t, p⟩ = .ok (.float .single, ⟨t, p + 1⟩) := by
  simp [decodeHeader, peekMarker, peekByte, decodeFloatHeader, pullByteExpecting,
    pullByte, bind, Except.bind, pure, Except.pure, Marker.detect]

theorem decodeHeader_float64 (t : List Nat) (p : Nat) :
    decodeHeader ⟨5 :: t, p⟩ = .ok (.float .double, ⟨t, p + 1⟩) := by
  simp [decodeHeader, peekMarker, peekByte, decodeFloatHeader, pullByteExpecting,
    pullByte, bind, Except.bind, pure, Except.pure, Marker.detect]

/-! ## Integer round-trip -/

theorem decodeValue_encInt (neg : Bool) (mag : Nat) (hmag : mag < 2 ^ 64)
    (hneg : neg = true → mag ≤ 2 ^ 63) (n : Nat) (t : List Nat) (p : Nat) :
    decodeValue (n + 1) ⟨encIntBytes neg mag ++ t, p⟩ =
      .ok (.int (if neg then .signed (.i64 (-(mag : Int))) else .unsigned (.u64 mag)),
        ⟨t, p + (encIntBytes neg mag).length⟩) := by
  unfold encIntBytes
  by_cases hm : mag ≤ 63
  · rw [if_pos hm]
    cases neg with
    | false =>
      have hb : 0x80 + (if false then 64 else 0) + mag = 0x80 + mag := by simp
      rw [hb]
      have hdet : Marker.detect (0x80 + mag) = .int := detect_int_compact (by omega)
      have hbits := bits_int_compact mag (by omega)
      simp [decodeValue, decodeValueOf, decodeValueOfGo, decodeHeader, peekMarker, peekByte,
        decodeIntHeader, decodeIntValueOf, pullByteExpecting, pullByte, bind,
        Except.bind, pure, Except.pure, hdet, hbits.1, hbits.2.1,
        if_pos (show 0x80 ≤ 0x80 + mag by omega)]
    | true =>
      have hb : 0x80 + (if true then 64 else 0) + mag = 0xC0 + mag := by norm_num
      rw [hb]
      have hdet : Marker.detect (0xC0 + mag) = .int := detect_int_compact (by omega)
      have hbits := bits_int_compact mag (by omega)
      simp [decodeValue, decodeValueOf, decodeValueOfGo, decodeHeader, peekMarker, peekByte,
        decodeIntHeader, decodeIntValueOf, pullByteExpecting, pullByte, bind,
        Except.bind, pure, Except.pure, hdet, hbits.2.2.1, hbits.2.2.2,
        if_pos (show 0x80 ≤ 0xC0 + mag by omega)]
  · rw [if_neg hm]
    have he := minIntExp_le mag
    have hpow := lt_pow_minIntExp hmag
    cases neg with
    | false =>
      have hb : 0x10 + (if false then 8 else 0) + 2 * minIntExp mag =
          0x10 + 2 * minIntExp mag := by simp
      rw [hb]
      have hdet : Marker.detect (0x10 + 2 * minIntExp mag) = .int :=
        detect_int_extended (by omega) (by omega)
      have hbits := bits_int_ext (minIntExp mag) (by omega)
      simp only [List.cons_append]
      simp only [decodeValue, decodeValueOf, decodeValueOfGo, decodeHeader, peekMarker, peekByte,
        decodeIntHeader, pullByteExpecting, pullByte, bind, Except.bind, pure,
        Except.pure, hdet, hbits.1, hbits.2.1, ite_true, ite_false]
      simp only [if_neg (show ¬(0x80 ≤ 0x10 + 2 * minIntExp mag) by omega),
        decodeValueOf, decodeValueOfGo, decodeIntValueOf, bind, Except.bind]
      rw [pullBytesInto_append (natToBE (2 ^ minIntExp mag) mag) t (p + 1)
        (natToBE_length _ _)]
      simp [bind, Except.bind, pure, Except.pure, beNat_natToBE_of_lt hpow,
        natToBE_length]
      omega
    | true =>
      have hb : 0x10 + (if true then 8 else 0) + 2 * minIntExp mag =
          0x18 + 2 * minIntExp mag := by norm_num
      rw [hb]
      have hdet : Marker.detect (0x18 + 2 * minIntExp mag) = .int :=
        detect_int_extended (by omega) (by omega)
      have hbits := bits_int_ext (minIntExp mag) (by omega)
      simp only [List.cons_append]
      simp only [decodeValue, decodeValueOf, decodeValueOfGo, decodeHeader, peekMarker, peekByte,
        decodeIntHeader, pullByteExpecting, pullByte, bind, Except.bind, pure,
        Except.pure, hdet, hbits.2.2.1, hbits.2.2.2, ite_true, ite_false]
      simp only [if_neg (show ¬(0x80 ≤ 0x18 + 2 * minIntExp mag) by omega),
        decodeValueOf, decodeValueOfGo, decodeIntValueOf, bind, Except.bind]
      rw [pullBytesInto_append (natToBE (2 ^ minIntExp mag) mag) t (p + 1)
        (natToBE_length _ _)]
      simp [bind, Except.bind, pure, Except.pure, beNat_natToBE_of_lt hpow,
        natToBE_length, hbits.2.2.2]
      rw [if_pos (show mag ≤ 9223372036854775808 by have h2 := hneg rfl; omega)]
      simp [Nat.add_assoc, Nat.add_comm, Nat.add_left_comm]

theorem decodeValue_int {iv : IntValue} (h : iv.Wf = true) (n : Nat) (t : List Nat)
    (p : Nat) :
    decodeValue (n + 1) ⟨encodeIntValue iv ++ t, p⟩ =
      .ok (.int iv.canon, ⟨t, p + (encodeIntValue iv).length⟩) := by
  unfold encodeIntValue
  cases iv with
  | signed s =>
    have hc := wf_canon_signed h
    by_cases hneg : s.canonicalized < 0
    · have hsm : intSignMag (.signed s) = (true, (-s.canonicalized).toNat) := by
        simp [intSignMag, hneg]
      rw [hsm]
      have hmag : (-s.canonicalized).toNat < 2 ^ 64 := by omega
      have hle : (-s.canonicalized).toNat ≤ 2 ^ 63 := by omega
      rw [decodeValue_encInt true _ hmag (fun _ => hle) n t p, if_pos rfl]
      have hcast : -(((-s.canonicalized).toNat : Int)) = s.canonicalized := by
        omega
      rw [hcast]
      simp only [IntValue.canon]
      rw [if_pos hneg]
    · have hsm : intSignMag (.signed s) = (false, s.canonicalized.toNat) := by
        simp [intSignMag, hneg]
      rw [hsm]
      have hmag : s.canonicalized.toNat < 2 ^ 64 := by omega
      rw [decodeValue_encInt false _ hmag (by simp) n t p]
      simp [IntValue.canon, hneg]
  | unsigned u =>
    have hc := wf_canon_unsigned h
    have hsm : intSignMag (.unsigned u) = (false, u.canonicalized) := by
      simp [intSignMag]
    rw [hsm, decodeValue_encInt false _ hc (by simp) n t p]
    simp [IntValue.canon]

/-! ## Canonicalization and value equality -/

theorem canonicalized_i64 (v : Int) : (SignedIntValue.i64 v).canonicalized = v := rfl

theorem canonicalized_u64 (v : Nat) : (UnsignedIntValue.u64 v).canonicalized = v := rfl

theorem canon_signed_neg {s : SignedIntValue} (h : s.canonicalized < 0) :
    (IntValue.signed s).canon = .signed (.i64 s.canonicalized) := by
  simp [IntValue.canon, h]

theorem canon_signed_nonneg {s : SignedIntValue} (h : ¬s.canonicalized < 0) :
    (IntValue.signed s).canon = .unsigned (.u64 s.canonicalized.toNat) := by
  simp [IntValue.canon, h]

theorem canon_unsigned (u : UnsignedIntValue) :
    (IntValue.unsigned u).canon = .unsigned (.u64 u.canonicalized) := rfl

theorem intBeq_canon (x y : IntValue) :
    IntValue.beq x.canon y.canon = IntValue.beq x y := by
  cases x with
  | signed s =>
    cases y with
    | signed s' =>
      by_cases h1 : s.canonicalized < 0
      · by_cases h2 : s'.canonicalized < 0
        · rw [canon_signed_neg h1, canon_signed_neg h2]
          simp only [IntValue.beq, canonicalized_i64]
        · rw [canon_signed_neg h1, canon_signed_nonneg h2]
          simp only [IntValue.beq, canonicalized_i64, canonicalized_u64]
          rw [if_pos h1]
          exact (decide_eq_false (by omega)).symm
      · by_cases h2 : s'.canonicalized < 0
        · rw [canon_signed_nonneg h1, canon_signed_neg h2]
          simp only [IntValue.beq, canonicalized_i64, canonicalized_u64]
          rw [if_pos h2]
          exact (decide_eq_false (by omega)).symm
        · rw [canon_signed_nonneg h1, canon_signed_nonneg h2]
          simp only [IntValue.beq, canonicalized_i64, canonicalized_u64]
          exact decide_eq_decide.mpr (by omega)
    | unsigned u =>
      by_cases h1 : s.canonicalized < 0
      · rw [canon_signed_neg h1, canon_unsigned]
        simp only [IntValue.beq, canonicalized_i64, canonicalized_u64]
      · rw [canon_signed_nonneg h1, canon_unsigned]
        simp only [IntValue.beq, canonicalized_i64, canonicalized_u64]
        rw [if_neg h1]
  | unsigned u =>
    cases y with
    | signed s' =>
      by_cases h2 : s'.canonicalized < 0
      · rw [canon_unsigned, canon_signed_neg h2]
        simp only [IntValue.beq, canonicalized_i64, canonicalized_u64]
      · rw [canon_unsigned, canon_signed_nonneg h2]
        simp only [IntValue.beq, canonicalized_i64, canonicalized_u64]
        rw [if_neg h2]
    | unsigned u' => rfl

theorem intBeq_canon_self (x : IntValue) : IntValue.beq x.canon x = true := by
  cases x with
  | signed s =>
    by_cases h1 : s.canonicalized < 0
    · rw [canon_signed_neg h1]
      simp [IntValue.beq, canonicalized_i64]
    · rw [canon_signed_nonneg h1]
      simp only [IntValue.beq, canonicalized_i64, canonicalized_u64]
      rw [if_neg h1]
      simp
  | unsigned u => simp [IntValue.canon, IntValue.beq, canonicalized_u64]

mutual
theorem beq_canonize_canonize (a b : Value) :
    Value.beq (Value.canonize a) (Value.canonize b) = Value.beq a b := by
  cases a with
  | int x =>
    cases b <;> try rfl
    case int y =>
      simp only [Value.canonize, Value.beq]
      exact intBeq_canon x y
  | str s =>
    cases b <;> rfl
  | seq xs =>
    cases b <;> try rfl
    case seq ys =>
      simp only [Value.canonize, Value.beq]
      exact beqList_canonize_canonize xs ys
  | map xs =>
    cases b <;> try rfl
    case map ys =>
      simp only [Value.canonize, Value.beq]
      exact beqPairs_canonize_canonize xs ys
  | float f =>
    cases f <;> cases b <;> rfl
  | bytes bs =>
    cases b <;> rfl
  | bool v =>
    cases b <;> rfl
  | unit =>
    cases b <;> rfl
  | null =>
    cases b <;> rfl

theorem beqList_canonize_canonize (as bs : List Value) :
    Value.beqList (Value.canonizeList as) (Value.canonizeList bs) =
      Value.beqList as bs := by
  cases as with
  | nil => cases bs <;> rfl
  | cons a as' =>
    cases bs with
    | nil => rfl
    | cons b bs' =>
      simp only [Value.canonizeList, Value.beqList]
      rw [beq_canonize_canonize a b, beqList_canonize_canonize as' bs']

theorem beqPairs_canonize_canonize (as bs : List (Value × Value)) :
    Value.beqPairs (Value.canonizePairs as) (Value.canonizePairs bs) =
      Value.beqPairs as bs := by
  cases as with
  | nil => cases bs <;> rfl
  | cons a as' =>
    cases bs with
    | nil =>
      cases a
      rfl
    | cons b bs' =>
      cases a with
      | mk k1 v1 =>
        cases b with
        | mk k2 v2 =>
          simp only [Value.canonizePairs, Value.beqPairs]
          rw [beq_canonize_canonize k1 k2, beq_canonize_canonize v1 v2,
            beqPairs_canonize_canonize as' bs']
end

mutual
theorem beq_canonize_self (v : Value) : Value.beq (Value.canonize v) v = true := by
  cases v with
  | int x =>
    simp only [Value.canonize, Value.beq]
    exact intBeq_canon_self x
  | str bs => simp [Value.canonize, Value.beq]
  | seq items =>
    simp only [Value.canonize, Value.beq]
    exact beqList_canonize_self items
  | map entries =>
    simp only [Value.canonize, Value.beq]
    exact beqPairs_canonize_self entries
  | float f => cases f <;> simp [Value.canonize, Value.beq]
  | bytes bs => simp [Value.canonize, Value.beq]
  | bool b => simp [Value.canonize, Value.beq]
  | unit => rfl
  | null => rfl

theorem beqList_canonize_self (l : List Value) :
    Value.beqList (Value.canonizeList l) l = true := by
  cases l with
  | nil => rfl
  | cons v vs =>
    simp only [Value.canonizeList, Value.beqList, Bool.and_eq_true]
    exact ⟨beq_canonize_self v, beqList_canonize_self vs⟩

theorem beqPairs_canonize_self (l : List (Value × Value)) :
    Value.beqPairs (Value.canonizePairs l) l = true := by
  cases l with
  | nil => rfl
  | cons q rest =>
    cases q with
    | mk k v =>
      simp only [Value.canonizePairs, Value.beqPairs, Bool.and_eq_true]
      exact ⟨⟨beq_canonize_self k, beq_canonize_self v⟩, beqPairs_canonize_self rest⟩
end

/-! ## Map insertion of fresh keys -/

theorem all_keys_canonize (k : Value) (l : List (Value × Value)) :
    (Value.canonizePairs l).all (fun p => !Value.beq (Value.canonize k) p.1) =
      l.all (fun p => !Value.beq k p.1) := by
  induction l with
  | nil => rfl
  | cons q t ih =>
    cases q with
    | mk k0 v0 =>
      simp only [Value.canonizePairs, List.all_cons, beq_canonize_canonize k k0, ih]

theorem keysFresh_canonizePairs (l : List (Value × Value)) :
    keysFresh (Value.canonizePairs l) = keysFresh l := by
  induction l with
  | nil => rfl
  | cons q t ih =>
    cases q with
    | mk k v =>
      simp only [Value.canonizePairs, keysFresh, all_keys_canonize, ih]

theorem mapInsert_fresh (acc : List (Value × Value)) (k v : Value)
    (h : ∀ q ∈ acc, Value.beq q.1 k = false) :
    mapInsert acc k v = acc ++ [(k, v)] := by
  induction acc with
  | nil => rfl
  | cons q t ih =>
    cases q with
    | mk k0 v0 =>
      simp only [mapInsert]
      rw [if_neg]
      · rw [ih (fun q hq => h q (List.mem_cons_of_mem _ hq))]
        rfl
      · have := h (k0, v0) (List.mem_cons_self _ _)
        simp at this
        simp [this]

theorem seqHeaderFor_len (len : Nat) : (seqHeaderFor len).len = len := by
  unfold seqHeaderFor
  split <;> rfl

theorem mapHeaderFor_len (len : Nat) : (mapHeaderFor len).len = len := by
  unfold mapHeaderFor
  split <;> rfl

theorem stringHeaderFor_len (len : Nat) : (stringHeaderFor len).len = len := by
  unfold stringHeaderFor
  split <;> rfl

theorem wfList_mem {l : List Value} (h : Value.WfList l = true) :
    ∀ v ∈ l, Value.Wf v = true := by
  induction l with
  | nil => intro v hv; cases hv
  | cons a t ih =>
    simp only [Value.WfList, Bool.and_eq_true] at h
    intro v hv
    rcases List.mem_cons.mp hv with h1 | h1
    · exact h1 ▸ h.1
    · exact ih h.2 v h1

theorem wfPairs_mem {l : List (Value × Value)} (h : Value.WfPairs l = true) :
    ∀ q ∈ l, Value.Wf q.1 = true ∧ Value.Wf q.2 = true := by
  induction l with
  | nil => intro q hq; cases hq
  | cons a t ih =>
    cases a with
    | mk k v =>
      simp only [Value.WfPairs, Bool.and_eq_true] at h
      intro q hq
      rcases List.mem_cons.mp hq with h1 | h1
      · exact h1 ▸ ⟨h.1.1, h.1.2⟩
      · exact ih h.2 q h1

theorem one_le_sizeOf_value (v : Value) : 1 ≤ sizeOf v := by
  cases v <;> simp_arith

theorem foldl_mapInsert_fresh (ps : List (Value × Value)) :
    ∀ (acc : List (Value × Value)),
      (∀ q ∈ ps, ∀ q0 ∈ acc, Value.beq q0.1 q.1 = false) →
      keysFresh ps = true →
      ps.foldl (fun acc p => mapInsert acc p.1 p.2) acc = acc ++ ps := by
  induction ps with
  | nil => intro acc _ _; simp
  | cons q rest ih =>
    intro acc hacc hfresh
    cases q with
    | mk k v =>
      simp only [keysFresh, Bool.and_eq_true, List.all_eq_true] at hfresh
      simp only [List.foldl_cons]
      rw [mapInsert_fresh acc k v
        (fun q0 hq0 => hacc (k, v) (List.mem_cons_self _ _) q0 hq0)]
      rw [ih (acc ++ [(k, v)]) ?fresh hfresh.2]
      · simp
      case fresh =>
        intro q hq q0 hq0
        rcases List.mem_append.mp hq0 with hmem | hmem
        · exact hacc q (List.mem_cons_of_mem _ hq) q0 hmem
        · have hq0k : q0 = (k, v) := by simpa using hmem
          subst hq0k
          have := hfresh.1 q hq
          simpa using this

/-! ## Round trip: sequence and map bodies -/

theorem decodeItems_encodeList (n : Nat) (items : List Value)
    (H : ∀ v ∈ items, ∀ (t : List Nat) (p : Nat),
      decodeValue n ⟨encodeValue v ++ t, p⟩ =
        .ok (Value.canonize v, ⟨t, p + (encodeValue v).length⟩)) :
    ∀ (t : List Nat) (p : Nat),
      decodeItems n items.length ⟨encodeList items ++ t, p⟩ =
        .ok (Value.canonizeList items, ⟨t, p + (encodeList items).length⟩) := by
  induction items with
  | nil =>
    intro t p
    simp [decodeItems, decodeItemsGo, encodeList, Value.canonizeList, pure, Except.pure]
  | cons v vs ih =>
    intro t p
    have hv := H v (List.mem_cons_self _ _)
    have ihs := ih (fun w hw => H w (List.mem_cons_of_mem _ hw))
    simp only [encodeList, List.append_assoc, List.length_cons, decodeItems, decodeItemsGo,
      bind, Except.bind]
    rw [hv (encodeList vs ++ t) p]
    simp only [decodeItemsGo_eq]
    simp only [ihs t (p + (encodeValue v).length)]
    simp [Value.canonizeList, pure, Except.pure, List.length_append, Nat.add_assoc]

theorem decodePairs_encodePairs (n : Nat) (entries : List (Value × Value))
    (H : ∀ q ∈ entries, ∀ (t : List Nat) (p : Nat),
      (decodeValue n ⟨encodeValue q.1 ++ t, p⟩ =
        .ok (Value.canonize q.1, ⟨t, p + (encodeValue q.1).length⟩)) ∧
      (decodeValue n ⟨encodeValue q.2 ++ t, p⟩ =
        .ok (Value.canonize q.2, ⟨t, p + (encodeValue q.2).length⟩))) :
    ∀ (t : List Nat) (p : Nat),
      decodePairs n entries.length ⟨encodePairs entries ++ t, p⟩ =
        .ok (Value.canonizePairs entries, ⟨t, p + (encodePairs entries).length⟩) := by
  induction entries with
  | nil =>
    intro t p
    simp [decodePairs, decodePairsGo, encodePairs, Value.canonizePairs, pure, Except.pure]
  | cons q rest ih =>
    intro t p
    cases q with
    | mk k v =>
      have hk := (H (k, v) (List.mem_cons_self _ _) (encodeValue v ++
        (encodePairs rest ++ t)) p).1
      have hv := (H (k, v) (List.mem_cons_self _ _) (encodePairs rest ++ t)
        (p + (encodeValue k).length)).2
      have ihs := ih (fun w hw => H w (List.mem_cons_of_mem _ hw))
      simp only [encodePairs, List.append_assoc, List.length_cons, decodePairs, decodePairsGo,
        bind, Except.bind]
      rw [hk]
      simp only [hv]
      simp only [decodePairsGo_eq]
      simp only [ihs t (p + (encodeValue k).length + (encodeValue v).length)]
      simp [Value.canonizePairs, pure, Except.pure, List.length_append,
        Nat.add_assoc]

/-! ## Round trip: the main induction -/

theorem decode_encodeValue :
    ∀ (fuel : Nat) (v : Value), sizeOf v ≤ fuel → Value.Wf v = true →
      ∀ (t : List Nat) (p : Nat),
        decodeValue fuel ⟨encodeValue v ++ t, p⟩ =
          .ok (Value.canonize v, ⟨t, p + (encodeValue v).length⟩) := by
  intro fuel
  induction fuel with
  | zero =>
    intro v hsz hwf t p
    exact absurd hsz (by have := one_le_sizeOf_value v; omega)
  | succ n ih =>
    intro v hsz hwf t p
    cases v with
    | int iv =>
      have hwf' : iv.Wf = true := by simpa [Value.Wf] using hwf
      have h1 : Value.canonize (.int iv) = .int iv.canon := rfl
      rw [h1]
      exact decodeValue_int hwf' n t p
    | bool b =>
      have h1 : encodeValue (.bool b) = [boolHeaderByte b] := rfl
      rw [h1, List.singleton_append]
      simp only [decodeValue, bind, Except.bind]
      rw [decodeHeader_bool b t p]
      simp [decodeValueOf, decodeValueOfGo, pure, Except.pure, Value.canonize]
    | unit =>
      have h1 : encodeValue .unit = [0] := rfl
      rw [h1, List.singleton_append]
      simp only [decodeValue, bind, Except.bind]
      rw [decodeHeader_unit t p]
      simp [decodeValueOf, decodeValueOfGo, pure, Except.pure, Value.canonize]
    | null =>
      have h1 : encodeValue .null = [1] := rfl
      rw [h1, List.singleton_append]
      simp only [decodeValue, bind, Except.bind]
      rw [decodeHeader_null t p]
      simp [decodeValueOf, decodeValueOfGo, pure, Except.pure, Value.canonize]
    | float f =>
      cases f with
      | f32 bits =>
        have hb : bits < 2 ^ 32 := by simpa [Value.Wf] using hwf
        have h1 : encodeValue (.float (.f32 bits)) = 4 :: natToBE 4 bits := rfl
        rw [h1, List.cons_append]
        simp only [decodeValue, bind, Except.bind]
        rw [decodeHeader_float32]
        simp only [decodeValueOf, decodeValueOfGo, bind, Except.bind]
        rw [pullBytesInto_append (natToBE 4 bits) t (p + 1) (natToBE_length _ _)]
        have hbe : beNat (natToBE 4 bits) = bits :=
          beNat_natToBE_of_lt (by norm_num; omega)
        simp [hbe, pure, Except.pure, Value.canonize, natToBE_length,
          List.length_cons, Nat.add_assoc, Nat.add_comm, Nat.add_left_comm]
      | f64 bits =>
        have hb : bits < 2 ^ 64 := by simpa [Value.Wf] using hwf
        have h1 : encodeValue (.float (.f64 bits)) = 5 :: natToBE 8 bits := rfl
        rw [h1, List.cons_append]
        simp only [decodeValue, bind, Except.bind]
        rw [decodeHeader_float64]
        simp only [decodeValueOf, decodeValueOfGo, bind, Except.bind]
        rw [pullBytesInto_append (natToBE 8 bits) t (p + 1) (natToBE_length _ _)]
        have hbe : beNat (natToBE 8 bits) = bits :=
          beNat_natToBE_of_lt (by norm_num; omega)
        simp [hbe, pure, Except.pure, Value.canonize, natToBE_length,
          List.length_cons, Nat.add_assoc, Nat.add_comm, Nat.add_left_comm]
    | bytes bs =>
      have hlen : bs.length < 2 ^ 64 := by
        have := hwf
        simp only [Value.Wf, Bool.and_eq_true, decide_eq_true_eq] at this
        exact this.2
      have h1 : encodeValue (.bytes bs) = bytesHeaderBytes bs.length ++ bs := rfl
      rw [h1, List.append_assoc]
      simp only [decodeValue, bind, Except.bind]
      rw [decodeHeader_bytes hlen (bs ++ t) p]
      simp only [decodeValueOf, decodeValueOfGo, bind, Except.bind, BytesHeader.for_len]
      rw [pullBytes_append bs t _ rfl]
      simp [pure, Except.pure, Value.canonize, List.length_append, Nat.add_assoc]
    | str bs =>
      have hwf' : utf8Valid bs = true ∧ bs.length < 2 ^ 64 := by
        have := hwf
        simp only [Value.Wf, Bool.and_eq_true, decide_eq_true_eq] at this
        exact this
      have h1 : encodeValue (.str bs) = stringHeaderBytes bs.length ++ bs := rfl
      rw [h1, List.append_assoc]
      simp only [decodeValue, bind, Except.bind]
      rw [decodeHeader_string hwf'.2 (bs ++ t) p]
      simp only [decodeValueOf, decodeValueOfGo, bind, Except.bind, stringHeaderFor_len]
      rw [pullBytes_append bs t _ rfl]
      simp [hwf'.1, pure, Except.pure, Value.canonize, List.length_append,
        Nat.add_assoc]
    | seq items =>
      have hwf' : Value.WfList items = true ∧ items.length < 2 ^ 64 := by
        have := hwf
        simp only [Value.Wf, Bool.and_eq_true, decide_eq_true_eq] at this
        exact this
      have hsub : ∀ w ∈ items, ∀ (t' : List Nat) (p' : Nat),
          decodeValue n ⟨encodeValue w ++ t', p'⟩ =
            .ok (Value.canonize w, ⟨t', p' + (encodeValue w).length⟩) := by
        intro w hw
        have hs : sizeOf w ≤ n := by
          have h2 := List.sizeOf_lt_of_mem hw
          have h3 : sizeOf (Value.seq items) = 1 + sizeOf items := by simp
          omega
        exact ih w hs (wfList_mem hwf'.1 w hw)
      have h1 : encodeValue (.seq items) =
          varLenHeaderBytes 0x40 items.length ++ encodeList items := rfl
      rw [h1, List.append_assoc]
      simp only [decodeValue, bind, Except.bind]
      rw [decodeHeader_seq hwf'.2 (encodeList items ++ t) p]
      simp only [decodeValueOf, decodeValueOfGo, bind, Except.bind, seqHeaderFor_len]
      simp only [decodeItemsGo_eq]
      rw [decodeItems_encodeList n items hsub t _]
      simp [pure, Except.pure, Value.canonize, List.length_append, Nat.add_assoc]
    | map entries =>
      have hwf' : Value.WfPairs entries = true ∧ keysFresh entries = true ∧
          entries.length < 2 ^ 64 := by
        have := hwf
        simp only [Value.Wf, Bool.and_eq_true, decide_eq_true_eq] at this
        exact ⟨this.1.1, this.1.2, this.2⟩
      have hsub : ∀ q ∈ entries, ∀ (t' : List Nat) (p' : Nat),
          (decodeValue n ⟨encodeValue q.1 ++ t', p'⟩ =
            .ok (Value.canonize q.1, ⟨t', p' + (encodeValue q.1).length⟩)) ∧
          (decodeValue n ⟨encodeValue q.2 ++ t', p'⟩ =
            .ok (Value.canonize q.2, ⟨t', p' + (encodeValue q.2).length⟩)) := by
        intro q hq t' p'
        have h2 := List.sizeOf_lt_of_mem hq
        have h3 : sizeOf (Value.map entries) = 1 + sizeOf entries := by simp
        obtain ⟨k, v⟩ := q
        have h4 : sizeOf ((k, v) : Value × Value) = 1 + sizeOf k + sizeOf v := by
          simp
        have hwk := (wfPairs_mem hwf'.1 (k, v) hq).1
        have hwv := (wfPairs_mem hwf'.1 (k, v) hq).2
        exact ⟨ih k (by omega) hwk t' p', ih v (by omega) hwv t' p'⟩
      have h1 : encodeValue (.map entries) =
          mapHeaderBytes entries.length ++ encodePairs entries := rfl
      rw [h1, List.append_assoc]
      simp only [decodeValue, bind, Except.bind]
      rw [decodeHeader_map hwf'.2.2 (encodePairs entries ++ t) p]
      simp only [decodeValueOf, decodeValueOfGo, bind, Except.bind, mapHeaderFor_len]
      simp only [decodePairsGo_eq]
      rw [decodePairs_encodePairs n entries hsub t _]
      have hfold : (Value.canonizePairs entries).foldl
          (fun acc p => mapInsert acc p.1 p.2) [] = Value.canonizePairs entries := by
        rw [foldl_mapInsert_fresh (Value.canonizePairs entries) []
          (fun q _ q0 hq0 => absurd hq0 (List.not_mem_nil q0))
          ((keysFresh_canonizePairs entries).trans hwf'.2.1 ▸ rfl)]
        simp
      simp [hfold, pure, Except.pure, Value.canonize, List.length_append,
        Nat.add_assoc]

/-! ## Claim theorems -/

/-- C1: For every well-formed in-memory value `v`, encoding `v` with
`encode_value` and then decoding the produced bytes with `decode_value`
(which runs `decode_header` followed by `decode_value_of` on that
header; the fuel `sizeOf v` is an embedding artifact bounding the
nesting depth, which the theorem shows is sufficient) consumes exactly
the produced bytes and yields the canonical form of `v`, a value equal
to `v` under the codec's value equality. -/
theorem C1_decode_encode_roundtrip (v : Value) (hwf : Value.Wf v = true) :
    decodeValue (sizeOf v) ⟨encodeValue v, 0⟩ =
      .ok (Value.canonize v, ⟨[], (encodeValue v).length⟩) ∧
    Value.beq (Value.canonize v) v = true := by
  refine ⟨?_, beq_canonize_self v⟩
  have h := decode_encodeValue (sizeOf v) v le_rfl hwf [] 0
  simpa using h

theorem C1_witness :
    Value.Wf (Value.map [(.int (.unsigned (.u8 1)),
      .seq [.bool true, .bool false])]) = true ∧
    decodeValue (sizeOf (Value.map [(.int (.unsigned (.u8 1)),
        .seq [.bool true, .bool false])]))
      ⟨encodeValue (Value.map [(.int (.unsigned (.u8 1)),
        .seq [.bool true, .bool false])]), 0⟩ =
      .ok (Value.canonize (Value.map [(.int (.unsigned (.u8 1)),
          .seq [.bool true, .bool false])]),
        ⟨[], (encodeValue (Value.map [(.int (.unsigned (.u8 1)),
          .seq [.bool true, .bool false])])).length⟩) ∧
    Value.beq (Value.canonize (Value.map [(.int (.unsigned (.u8 1)),
        .seq [.bool true, .bool false])]))
      (Value.map [(.int (.unsigned (.u8 1)), .seq [.bool true, .bool false])]) =
      true :=
  ⟨rfl,
    (C1_decode_encode_roundtrip
      (Value.map [(.int (.unsigned (.u8 1)), .seq [.bool true, .bool false])])
      rfl).1,
    (C1_decode_encode_roundtrip
      (Value.map [(.int (.unsigned (.u8 1)), .seq [.bool true, .bool false])])
      rfl).2⟩

/-- C2: the code violates the claim.  On the 5-byte encoding
`[0x0C, 0x03, 0x2A, 0x0D, 0x25]` of the bytes value `[0x2A, 0x0D, 0x25]`,
`skip_value` consumes the whole encoding from the reader (the remainder
matches what `decode_value` leaves) but advances `pos()` by only the
2 header bytes, because `skip_bytes_value_of` calls `Reader::skip`
without adding the body length to `pos`; `decode_value` advances `pos()`
by all 5 bytes, as the claim requires of `skip_value` too. -/
theorem C2_skip_pos_divergence :
    encodeValue (.bytes [0x2A, 0x0D, 0x25]) = [0x0C, 0x03, 0x2A, 0x0D, 0x25] ∧
    skipValue 1 ⟨[0x0C, 0x03, 0x2A, 0x0D, 0x25], 0⟩ = .ok ⟨[], 2⟩ ∧
    decodeValue 1 ⟨[0x0C, 0x03, 0x2A, 0x0D, 0x25], 0⟩ =
      .ok (.bytes [0x2A, 0x0D, 0x25], ⟨[], 5⟩) ∧
    (2 : Nat) ≠ ([0x0C, 0x03, 0x2A, 0x0D, 0x25] : List Nat).length :=
  ⟨rfl, rfl, rfl, by decide⟩

/-- C3 (counterexample): a seq extended header byte whose low bits hold
`2`.  Under the claim the decoder would read `2^2 = 4` big-endian length
bytes, producing the length `beNat [0x00, 0x00, 0x05, 0x99]` and ending
at position 5; `decode_seq_header` instead computes the width as
`1 + (byte & EXTENDED_LEN_WIDTH_BITS) = 3`, reads three bytes, and
returns length 5 at position 4 with `0x99` unconsumed. -/
theorem C3_counterexample :
    ((0x42 : Nat) &&& SeqHeader.EXTENDED_LEN_WIDTH_BITS) = 2 ∧
    decodeSeqHeader ⟨[0x42, 0x00, 0x00, 0x05, 0x99], 0⟩ =
      .ok (.extended 5, ⟨[0x99], 4⟩) ∧
    decodeSeqHeader ⟨[0x42, 0x00, 0x00, 0x05, 0x99], 0⟩ ≠
      .ok (.extended (beNat [0x00, 0x00, 0x05, 0x99]), ⟨[], 5⟩) := by
  refine ⟨by decide, rfl, ?_⟩
  intro h
  rw [show decodeSeqHeader ⟨[0x42, 0x00, 0x00, 0x05, 0x99], 0⟩ =
    .ok (.extended 5, ⟨[0x99], 4⟩) from rfl] at h
  simp [beNat] at h

/-- C3 (amended): for every extended-form header of String, Map, or
Bytes, the low two bits of the header byte are a length-width exponent
`e ∈ {0,1,2,3}` and the decoder reads exactly `2^e` big-endian length
bytes immediately after the header byte (Bytes per `decoder/bytes.rs`;
the String and Map decoders are absent from `src/` and modelled from the
spec's wire table, which codes all three alike); for extended headers of
Seq the low bits instead encode the length width minus one, and the
decoder reads `(byte & EXTENDED_LEN_WIDTH_BITS) + 1` big-endian length
bytes. -/
theorem C3_length_width_fields :
    (∀ e < 4, ∀ (lenBytes t : List Nat) (p : Nat), lenBytes.length = 2 ^ e →
      beNat lenBytes ≤ USIZE_MAX →
      decodeBytesHeader ⟨(0x0C + e) :: (lenBytes ++ t), p⟩ =
        .ok (BytesHeader.for_len (beNat lenBytes), ⟨t, p + 1 + 2 ^ e⟩)) ∧
    (∀ e < 4, ∀ (lenBytes t : List Nat) (p : Nat), lenBytes.length = 2 ^ e →
      beNat lenBytes ≤ USIZE_MAX →
      decodeStringHeader ⟨(0x08 + e) :: (lenBytes ++ t), p⟩ =
        .ok (.extended (beNat lenBytes), ⟨t, p + 1 + 2 ^ e⟩)) ∧
    (∀ e < 4, ∀ (lenBytes t : List Nat) (p : Nat), lenBytes.length = 2 ^ e →
      beNat lenBytes ≤ USIZE_MAX →
      decodeMapHeader ⟨(0x50 + e) :: (lenBytes ++ t), p⟩ =
        .ok (.extended (beNat lenBytes), ⟨t, p + 1 + 2 ^ e⟩)) ∧
    (∀ k < 8, ∀ (lenBytes t : List Nat) (p : Nat), lenBytes.length = 1 + k →
      beNat lenBytes ≤ USIZE_MAX →
      decodeSeqHeader ⟨(0x40 + k) :: (lenBytes ++ t), p⟩ =
        .ok (.extended (beNat lenBytes), ⟨t, p + 1 + (1 + k)⟩)) := by
  refine ⟨?_, ?_, ?_, ?_⟩
  · intro e he lenBytes t p hlen hmax
    have hdet : Marker.detect (0x0C + e) = .bytes := detect_bytes (by omega) (by omega)
    have hbits := bits_exp_0x0C e he
    simp only [decodeBytesHeader, pullByteExpecting, pullByte, pullLenBytes,
      pullLenBytesGen, bind, Except.bind, pure, Except.pure, hdet, hbits,
      BytesHeader.LEN_WIDTH_EXPONENT_BITS, shiftLeft_one_exp, ite_true]
    rw [pullBytesInto_append lenBytes t (p + 1) hlen]
    simp [hmax, BytesHeader.for_len, Nat.add_assoc]
  · intro e he lenBytes t p hlen hmax
    have hdet : Marker.detect (0x08 + e) = .string :=
      detect_string_extended (by omega) (by omega)
    have hbits := bits_exp_0x08 e he
    simp only [decodeStringHeader, pullByteExpecting, pullByte, pullLenBytes,
      pullLenBytesGen, bind, Except.bind, pure, Except.pure, hdet, hbits,
      ite_true]
    rw [if_neg (by omega), pullBytesInto_append lenBytes t (p + 1) hlen]
    simp [hmax, Nat.add_assoc]
  · intro e he lenBytes t p hlen hmax
    have hdet : Marker.detect (0x50 + e) = .map := detect_map (by omega) (by omega)
    have hbits := bits_map_exp e he
    simp only [decodeMapHeader, pullByteExpecting, pullByte, pullLenBytes,
      pullLenBytesGen, bind, Except.bind, pure, Except.pure, hdet, hbits.1,
      hbits.2, MapHeader.LEN_WIDTH_EXPONENT_BITS, MapHeader.COMPACT_VARIANT_BIT,
      shiftLeft_one_exp, ite_true, ite_false]
    rw [pullBytesInto_append lenBytes t (p + 1) hlen]
    simp [hmax, Nat.add_assoc]
  · intro k hk lenBytes t p hlen hmax
    have hdet : Marker.detect (0x40 + k) = .seq := detect_seq (by omega) (by omega)
    have hbits := bits_seq_ext k hk
    simp only [decodeSeqHeader, pullByteExpecting, pullByte, pullLenBytes,
      pullLenBytesGen, bind, Except.bind, pure, Except.pure, hdet, hbits.1,
      hbits.2, SeqHeader.EXTENDED_LEN_WIDTH_BITS, SeqHeader.COMPACT_VARIANT_BIT,
      ite_true, ite_false]
    rw [pullBytesInto_append lenBytes t (p + 1) hlen]
    simp [hmax, Nat.add_assoc]

theorem C3_amended_witness :
    ((1 : Nat) < 4 ∧ ([0, 3] : List Nat).length = 2 ^ 1 ∧
      beNat [0, 3] ≤ USIZE_MAX ∧
      decodeBytesHeader ⟨(0x0C + 1) :: (([0, 3] : List Nat) ++ []), 0⟩ =
        .ok (BytesHeader.for_len (beNat [0, 3]), ⟨[], 0 + 1 + 2 ^ 1⟩)) ∧
    ((0 : Nat) < 4 ∧ ([33] : List Nat).length = 2 ^ 0 ∧
      beNat [33] ≤ USIZE_MAX ∧
      decodeStringHeader ⟨(0x08 + 0) :: (([33] : List Nat) ++ []), 0⟩ =
        .ok (.extended (beNat [33]), ⟨[], 0 + 1 + 2 ^ 0⟩)) ∧
    ((1 : Nat) < 4 ∧ ([0, 9] : List Nat).length = 2 ^ 1 ∧
      beNat [0, 9] ≤ USIZE_MAX ∧
      decodeMapHeader ⟨(0x50 + 1) :: (([0, 9] : List Nat) ++ []), 0⟩ =
        .ok (.extended (beNat [0, 9]), ⟨[], 0 + 1 + 2 ^ 1⟩)) ∧
    ((2 : Nat) < 8 ∧ ([0, 0, 5] : List Nat).length = 1 + 2 ∧
      beNat [0, 0, 5] ≤ USIZE_MAX ∧
      decodeSeqHeader ⟨(0x40 + 2) :: (([0, 0, 5] : List Nat) ++ []), 0⟩ =
        .ok (.extended (beNat [0, 0, 5]), ⟨[], 0 + 1 + (1 + 2)⟩)) :=
  ⟨⟨by decide, by decide, by decide,
    C3_length_width_fields.1 1 (by decide) [0, 3] [] 0 (by decide) (by decide)⟩,
   ⟨by decide, by decide, by decide,
    C3_length_width_fields.2.1 0 (by decide) [33] [] 0 (by decide) (by decide)⟩,
   ⟨by decide, by decide, by decide,
    C3_length_width_fields.2.2.1 1 (by decide) [0, 9] [] 0 (by decide) (by decide)⟩,
   ⟨by decide, by decide, by decide,
    C3_length_width_fields.2.2.2 2 (by decide) [0, 0, 5] [] 0 (by decide) (by decide)⟩⟩

/-- C4: `pull_len_bytes` of width `w` reads exactly the next `w` wire
bytes big-endian into the low end of a zero-initialized 8-byte buffer
(so the value read is the big-endian number the `w` bytes denote),
converts the resulting `u64` to the platform index type, succeeding with
that value when it fits and failing with `NumberOutOfRange` carrying the
byte position of the start of the length field otherwise. -/
theorem C4_pull_len_bytes (usizeMax w : Nat) (bs t : List Nat) (p : Nat)
    (hw : w ≤ 8) (hlen : bs.length = w) :
    pullLenBytesGen usizeMax w ⟨bs ++ t, p⟩ =
      if beNat bs ≤ usizeMax then .ok (beNat bs, ⟨t, p + w⟩)
      else .error (.numberOutOfRange (some p)) := by
  unfold pullLenBytesGen
  rw [pullBytesInto_append bs t p hlen]
  by_cases h : beNat bs ≤ usizeMax
  · rw [if_pos h]
    simp [bind, Except.bind, pure, Except.pure, h]
  · rw [if_neg h]
    simp [bind, Except.bind, pure, Except.pure, h]

theorem C4_witness :
    ((1 : Nat) ≤ 8 ∧ ([5] : List Nat).length = 1 ∧
      pullLenBytesGen 10 1 ⟨([5] : List Nat) ++ [99], 0⟩ = .ok (5, ⟨[99], 0 + 1⟩)) ∧
    ((1 : Nat) ≤ 8 ∧ ([200] : List Nat).length = 1 ∧
      pullLenBytesGen 10 1 ⟨([200] : List Nat) ++ [99], 7⟩ =
        .error (.numberOutOfRange (some 7))) :=
  ⟨⟨by decide, rfl, by
      have h := C4_pull_len_bytes 10 1 [5] [99] 0 (by decide) rfl
      simpa [beNat] using h⟩,
   ⟨by decide, rfl, by
      have h := C4_pull_len_bytes 10 1 [200] [99] 7 (by decide) rfl
      simpa [beNat] using h⟩⟩

/-- C5: a `Signed(s)` equals an `Unsigned(u)` exactly when `s ≥ 0` and
`s` as `u64` equals `u`'s canonical value; and whenever `s` is negative,
`cmp` of `Signed(s)` against any `Unsigned(u)` is `Less` (and `Greater`
with the operands flipped), for every pair of component widths. -/
theorem C5_signed_unsigned_eq_ord (s : SignedIntValue) (u : UnsignedIntValue) :
    (IntValue.beq (.signed s) (.unsigned u) = true ↔
      0 ≤ s.canonicalized ∧ s.canonicalized.toNat = u.canonicalized) ∧
    (s.canonicalized < 0 →
      IntValue.cmp (.signed s) (.unsigned u) = .lt ∧
      IntValue.cmp (.unsigned u) (.signed s) = .gt) := by
  constructor
  · simp only [IntValue.beq]
    by_cases h : s.canonicalized < 0
    · rw [if_pos h]
      simp only [Bool.false_eq_true, false_iff]
      intro hc
      omega
    · rw [if_neg h]
      simp only [decide_eq_true_eq]
      constructor
      · intro h2
        exact ⟨by omega, h2⟩
      · intro h2
        exact h2.2
  · intro h
    constructor
    · simp only [IntValue.cmp]
      rw [if_pos h]
    · simp only [IntValue.cmp]
      rw [if_pos h]

theorem C5_witness :
    (IntValue.beq (.signed (.i16 7)) (.unsigned (.u32 7)) = true ↔
      0 ≤ (SignedIntValue.i16 7).canonicalized ∧
        (SignedIntValue.i16 7).canonicalized.toNat =
          (UnsignedIntValue.u32 7).canonicalized) ∧
    ((SignedIntValue.i8 (-5)).canonicalized < 0) ∧
    IntValue.cmp (.signed (.i8 (-5))) (.unsigned (.u8 3)) = .lt ∧
    IntValue.cmp (.unsigned (.u8 3)) (.signed (.i8 (-5))) = .gt :=
  ⟨(C5_signed_unsigned_eq_ord (.i16 7) (.u32 7)).1,
   by decide,
   ((C5_signed_unsigned_eq_ord (.i8 (-5)) (.u8 3)).2 (by decide)).1,
   ((C5_signed_unsigned_eq_ord (.i8 (-5)) (.u8 3)).2 (by decide)).2⟩

/-- C6: the hasher input of an `Unsigned` is the native-endian bytes of
its canonical `u64`; a non-negative `Signed` hashes the same bytes as
the `Unsigned` of equal magnitude; a negative `Signed` hashes the
native-endian bytes of its canonical `i64`; and any two `IntValue`s that
compare equal hash identically. -/
theorem C6_eq_hash (a b : IntValue) :
    (∀ u : UnsignedIntValue,
      (IntValue.unsigned u).hashBytes = natToLE 8 u.canonicalized) ∧
    (∀ s : SignedIntValue, ¬s.canonicalized < 0 →
      (IntValue.signed s).hashBytes =
        (IntValue.unsigned (.u64 s.canonicalized.toNat)).hashBytes) ∧
    (∀ s : SignedIntValue, s.canonicalized < 0 →
      (IntValue.signed s).hashBytes =
        natToLE 8 (s.canonicalized % (2 ^ 64 : Int)).toNat) ∧
    (IntValue.beq a b = true → a.hashBytes = b.hashBytes) := by
  refine ⟨fun u => rfl, ?_, ?_, ?_⟩
  · intro s hs
    simp [IntValue.hashBytes, hs, canonicalized_u64]
  · intro s hs
    simp [IntValue.hashBytes, hs]
  · intro h
    cases a with
    | signed sa =>
      cases b with
      | signed sb =>
        simp only [IntValue.beq, decide_eq_true_eq] at h
        simp [IntValue.hashBytes, h]
      | unsigned ub =>
        simp only [IntValue.beq] at h
        by_cases hlt : sa.canonicalized < 0
        · rw [if_pos hlt] at h
          cases h
        · rw [if_neg hlt] at h
          simp only [decide_eq_true_eq] at h
          simp [IntValue.hashBytes, hlt, h]
    | unsigned ua =>
      cases b with
      | signed sb =>
        simp only [IntValue.beq] at h
        by_cases hlt : sb.canonicalized < 0
        · rw [if_pos hlt] at h
          cases h
        · rw [if_neg hlt] at h
          simp only [decide_eq_true_eq] at h
          simp [IntValue.hashBytes, hlt, h]
      | unsigned ub =>
        simp only [IntValue.beq, decide_eq_true_eq] at h
        simp [IntValue.hashBytes, h]

theorem C6_witness :
    IntValue.beq (.signed (.i8 5)) (.unsigned (.u32 5)) = true ∧
    (IntValue.signed (.i8 5)).hashBytes = (IntValue.unsigned (.u32 5)).hashBytes :=
  ⟨by decide,
   (C6_eq_hash (.signed (.i8 5)) (.unsigned (.u32 5))).2.2.2 (by decide)⟩

/-- C7: encoding `true` produces exactly the single byte
`BoolHeader::TYPE_BITS | BoolHeader::VALUE_BIT` and encoding `false`
exactly the single byte `BoolHeader::TYPE_BITS`; decoding each byte
yields the corresponding `BoolValue` with no body bytes consumed. -/
theorem C7_bool_encoding :
    encodeValue (.bool true) = [BoolHeader.TYPE_BITS ||| BoolHeader.VALUE_BIT] ∧
    encodeValue (.bool false) = [BoolHeader.TYPE_BITS] ∧
    decodeValue 1 ⟨encodeValue (.bool true), 0⟩ = .ok (.bool true, ⟨[], 1⟩) ∧
    decodeValue 1 ⟨encodeValue (.bool false), 0⟩ = .ok (.bool false, ⟨[], 1⟩) :=
  ⟨rfl, rfl, rfl, rfl⟩

/-- C8: `peek_marker` returns the marker of the next value while leaving
the decoder unchanged: the state after a successful peek is the state
before it, `pos()` in particular is unchanged, and a subsequent
`decode_header` sees exactly the same input. -/
theorem C8_peek_marker_pure (s : DState) (m : Marker) (s' : DState)
    (h : peekMarker s = .ok (m, s')) :
    s' = s ∧ s'.pos = s.pos ∧ decodeHeader s' = decodeHeader s := by
  unfold peekMarker peekByte at h
  cases hr : s.rest with
  | nil =>
    rw [hr] at h
    simp [bind, Except.bind] at h
  | cons b t =>
    rw [hr] at h
    simp only [bind, Except.bind, pure, Except.pure, Except.ok.injEq] at h
    obtain ⟨-, rfl⟩ := h
    exact ⟨rfl, rfl, rfl⟩

theorem C8_witness :
    peekMarker ⟨[3, 7], 5⟩ = .ok (.bool, ⟨[3, 7], 5⟩) ∧
    ((⟨[3, 7], 5⟩ : DState) = ⟨[3, 7], 5⟩ ∧
      (⟨[3, 7], 5⟩ : DState).pos = (⟨[3, 7], 5⟩ : DState).pos ∧
      decodeHeader ⟨[3, 7], 5⟩ = decodeHeader ⟨[3, 7], 5⟩) :=
  ⟨rfl, C8_peek_marker_pure ⟨[3, 7], 5⟩ .bool ⟨[3, 7], 5⟩ rfl⟩

/-- C9: `decode_bytes_header` normalizes the header it returns: the
result is `BytesHeader::for_len` of the decoded length, so two
successful decodes that produce the same length produce equal
`BytesHeader` values even when the wire used different length-width
exponents. -/
theorem C9_bytes_header_normalized (s1 s2 : DState) (h1 h2 : BytesHeader)
    (s1' s2' : DState) (e1 : decodeBytesHeader s1 = .ok (h1, s1'))
    (e2 : decodeBytesHeader s2 = .ok (h2, s2')) (hlen : h1.len = h2.len) :
    h1 = h2 ∧ h1 = BytesHeader.for_len h1.len := by
  cases h1
  cases h2
  simp only [BytesHeader.mk.injEq] at hlen ⊢
  exact ⟨hlen, rfl⟩

theorem C9_witness :
    decodeBytesHeader ⟨[0x0C, 3, 1, 2, 3], 0⟩ =
      .ok (BytesHeader.for_len 3, ⟨[1, 2, 3], 2⟩) ∧
    decodeBytesHeader ⟨[0x0D, 0, 3, 1, 2, 3], 0⟩ =
      .ok (BytesHeader.for_len 3, ⟨[1, 2, 3], 3⟩) ∧
    (BytesHeader.for_len 3).len = (BytesHeader.for_len 3).len ∧
    (BytesHeader.for_len 3 = BytesHeader.for_len 3 ∧
      BytesHeader.for_len 3 = BytesHeader.for_len (BytesHeader.for_len 3).len) :=
  ⟨rfl, rfl, rfl,
   C9_bytes_header_normalized ⟨[0x0C, 3, 1, 2, 3], 0⟩ ⟨[0x0D, 0, 3, 1, 2, 3], 0⟩
     (BytesHeader.for_len 3) (BytesHeader.for_len 3) ⟨[1, 2, 3], 2⟩ ⟨[1, 2, 3], 3⟩
     rfl rfl rfl⟩

/-- C10: pulling zero bytes never fails and does not move the decoder:
for every decoder state, including one whose reader is at end of input,
`pull_bytes_into` with an empty buffer returns `Ok` without invoking the
reader and with `pos()` unchanged, and the zero-length reader read used
for zero-length bodies likewise succeeds, so decoding a value whose body
has length 0 cannot fail with `UnexpectedEndOfFile` on the body. -/
theorem C10_pull_zero_bytes (s : DState) :
    pullBytesInto 0 s = .ok ([], s) ∧ pullBytes 0 s = .ok ([], s) := by
  cases s with
  | mk rest pos =>
    constructor
    · unfold pullBytesInto
      simp
    · unfold pullBytes
      simp
